import Mathlib

/-!
# Verification of the trace data-lineage and orchestration engine

A shallow embedding, in Lean 4, of the core of the `app-trace` repository:

* the channel resolver (`tracengine/data/resolve.py`),
* the derived-channel provenance engine
  (`tracetool/processing/channel_utils.py`),
* recompute-on-load with its topological sort
  (`tracengine/data/loader.py`), and
* the pipeline runner (`tracetool/engine/runner.py`),

together with theorems settling the behavioural claims about these
components.

Modelling conventions, used consistently below:

* A Python `dict` is modelled as an insertion-ordered association list
  (`Dict α` below); `d[k] = v` replaces the first binding of `k` in place
  or appends a fresh binding at the end, exactly as CPython dicts do.
* Signal samples are modelled as exact rationals; a missing sample (NaN)
  is `none`.  "Bit-for-bit identical" floating point results are modelled
  as equality of these exact values.  Non-finite division results
  (division by a zero time step) are modelled as missing values.
* External collaborators that are not part of the repository's source
  (scipy filters reached through the processor registry, and pandas
  datetime parsing) are abstracted into an explicit context `Ctx`:
  a registry `String → Option Processor` and a time-axis parser
  `toTimeSec`, which models
  `(pd.to_datetime(col, utc=True, format="mixed") - run.start_time)
  .dt.total_seconds()`; the subtraction of the constant `run.start_time`
  is absorbed into the parser (all uses of the time axis are invariant
  under a constant shift).  Parse failure (a raised exception) is `none`.
* Python string formatting of error messages is modelled without the
  decorative quote characters around interpolated names.
* Wall-clock fields (`timestamp`, `duration_seconds`), logging via
  `print`, and the optional progress callback are not modelled: no
  verified behaviour reads them.
-/

/-! ## §1  Python dictionaries as insertion-ordered association lists -/

/-- A Python `dict` with `String` keys: an insertion-ordered association
list.  Well-formed dicts have pairwise-distinct keys (`DictWF`). -/
abbrev Dict (α : Type) : Type := List (String × α)

namespace Dict

/-- `d.get(k)` (returning `None` when absent): the first binding wins. -/
def find? {α : Type} : Dict α → String → Option α
  | [], _ => none
  | (k', v) :: rest, k => if k' = k then some v else find? rest k

/-- `k in d`. -/
def containsKey {α : Type} (d : Dict α) (k : String) : Bool :=
  (d.find? k).isSome

/-- `d[k] = v`: replace the first binding of `k` in place, or append a
fresh binding at the end — CPython dict assignment semantics. -/
def set {α : Type} : Dict α → String → α → Dict α
  | [], k, v => [(k, v)]
  | (k', v') :: rest, k, v =>
      if k' = k then (k, v) :: rest else (k', v') :: set rest k v

/-- `d.update(other)`: assign every binding of `other` in order. -/
def updateAll {α : Type} (d other : Dict α) : Dict α :=
  other.foldl (fun acc kv => acc.set kv.1 kv.2) d

/-- The keys, in insertion order. -/
def keys {α : Type} (d : Dict α) : List String := d.map Prod.fst

/-- `d.get(k, fallback)`. -/
def findD {α : Type} (d : Dict α) (k : String) (fallback : α) : α :=
  (d.find? k).getD fallback

end Dict

/-- Well-formedness of a Python dict: keys are pairwise distinct (CPython
guarantees this for every dict it builds). -/
def DictWF {α : Type} (d : Dict α) : Prop := d.keys.Nodup

/-! ## §2  Values, parameters and the data model
(`tracetool/data/descriptors.py`; the `tracengine` package's descriptors
are the near-duplicate of the same dataclasses) -/

/-- One sample of a signal column: an exact rational, or `none` for a
missing value (NaN). -/
abbrev Val : Type := Option ℚ

/-- A column of a signal table. -/
abbrev Col : Type := List Val

/-- A parameter value, as stored in an operation's `params` dict. -/
inductive PVal : Type
  | int (n : ℤ)
  | rat (q : ℚ)
  | bool (b : Bool)
  | str (s : String)
deriving DecidableEq

/-- An operation's parameter dict. -/
abbrev Params : Type := Dict PVal

namespace Params

/-- `int(params.get(k, fallback))` — coercion is modelled for the values
that actually occur as numeric parameters (integers; rationals are
truncated toward zero as Python `int()` does; `bool` follows Python's
`int(True) = 1`). -/
def getInt (p : Params) (k : String) (fallback : ℤ) : ℤ :=
  match p.find? k with
  | some (.int n) => n
  | some (.rat q) => q.num / q.den
  | some (.bool b) => if b then 1 else 0
  | _ => fallback

/-- Truthiness of `params.get(k, False)`. -/
def getTruthy (p : Params) (k : String) : Bool :=
  match p.find? k with
  | some (.int n) => n ≠ 0
  | some (.rat q) => q ≠ 0
  | some (.bool b) => b
  | some (.str s) => s ≠ ""
  | none => false

end Params

/-- `Channel`: immutable reference `{id, group, name}` with
`id = "group:name"` (descriptors.py, `Channel`). -/
structure Channel : Type where
  id : String
  group : String
  name : String
deriving DecidableEq

/-- `Channel.from_parts(group, name)`. -/
def Channel.from_parts (group name : String) : Channel :=
  ⟨group ++ ":" ++ name, group, name⟩

/-- `ChannelProvenance`: lineage record of one derived channel
(descriptors.py).  The wall-clock `timestamp` field is not modelled: no
operation ever reads it. -/
structure ChannelProvenance : Type where
  parents : List String
  operation : String
  parameters : Params
deriving DecidableEq

/-- `Event` (descriptors.py). -/
structure Event : Type where
  annotator : String
  name : String
  event_type : String
  onset : ℚ
  offset : Option ℚ
  confidence : Option ℚ
  metadata : List (String × String)
deriving DecidableEq

/-- `SignalGroup` (descriptors.py): a named table of columns plus an
estimated sampling rate.  The pandas `DataFrame` is modelled as a dict
from column name to column. -/
structure SignalGroup : Type where
  name : String
  modality : String
  data : Dict Col
  sampling_rate : Option ℚ
deriving DecidableEq

/-- `RunConfig` (descriptors.py): instance-scoped binding maps. -/
structure RunConfig : Type where
  channel_bindings : Dict (Dict String) := []
  parameters : Dict (Dict PVal) := []
  event_bindings : Dict (Dict String) := []
deriving DecidableEq

/-- `RunData` (descriptors.py): the aggregate root.  `start_time` is
absorbed into the abstract time-axis parser (see §4), `metadata` and
`compute` are never read by the verified operations. -/
structure RunData : Type where
  subject : String
  session : String
  run : String
  signals : Dict SignalGroup
  annotations : Dict (List Event)
  channel_provenance : Dict ChannelProvenance
  run_config : Option RunConfig
deriving DecidableEq

/-! ## §3  Channel-id splitting

`channel_id.split(":", 1)` guarded by `":" in channel_id`, used by the
resolver and the recompute loop.  Implemented on character lists so that
the round-trip law (and hence injectivity) is provable. -/

/-- Split a character list at its first `':'`. -/
def splitIdChars : List Char → Option (List Char × List Char)
  | [] => none
  | c :: rest =>
      if c = ':' then some ([], rest)
      else (splitIdChars rest).map (fun p => (c :: p.1, p.2))

/-- `s.split(":", 1)` when `":" in s`, as `some (group, name)`;
`none` when the id contains no colon. -/
def splitId (s : String) : Option (String × String) :=
  (splitIdChars s.toList).map (fun p => (p.1.asString, p.2.asString))

/-! ## §4  Channel resolution (`tracengine/data/resolve.py`)

`resolve_channel` is translated line by line.  Both failure exits of the
Python function execute the single trailing
`raise KeyError(f"No channel found for spec: ...")`, so the embedding
returns `Except String Channel` whose error is that one message. -/

/-- `ChannelSpec` (descriptors.py). -/
structure ChannelSpec : Type where
  semantic_role : String
  allow_derived : Bool := true
deriving DecidableEq

/-- The message of the one `KeyError` that `resolve_channel` can raise
(`No channel found for spec: semantic_role='{role}' (instance='{name}')`;
quote characters omitted, `None` rendered as Python renders it). -/
def resolveErrMsg (spec : ChannelSpec) (instance_name : Option String) :
    String :=
  "No channel found for spec: semantic_role=" ++ spec.semantic_role ++
    " (instance=" ++ (match instance_name with
                      | none => "None"
                      | some s => s) ++ ")"

/-- `resolve_channel(run, spec, config, instance_name)` (resolve.py,
lines 18-72).  The guard `if config and instance_name and ...` tests
Python truthiness: a `None` config, a `None` instance name, and an empty
instance name all skip the binding lookup.  Inside the guard, the bound
id must contain `":"`, its group must exist and its name must be a
column; the `allow_derived` block assigns `derived_match = None`
(the historical search is disabled in the source), so its `if` branch is
dead and the function returns the exact bound channel.  Every
fall-through reaches the single `raise KeyError(...)`. -/
def resolve_channel (run : RunData) (spec : ChannelSpec)
    (config : Option RunConfig) (instance_name : Option String) :
    Except String Channel :=
  match config, instance_name with
  | some cfg, some inst =>
      if inst = "" then .error (resolveErrMsg spec instance_name)
      else
        match cfg.channel_bindings.find? inst with
        | none => .error (resolveErrMsg spec instance_name)
        | some instance_bindings =>
            match instance_bindings.find? spec.semantic_role with
            | none => .error (resolveErrMsg spec instance_name)
            | some channel_id =>
                match splitId channel_id with
                | none => .error (resolveErrMsg spec instance_name)
                | some (group, name) =>
                    match run.signals.find? group with
                    | none => .error (resolveErrMsg spec instance_name)
                    | some sg =>
                        if (sg.data.find? name).isSome then
                          if spec.allow_derived then
                            -- source lines 58-67: the historical search
                            -- is disabled (`derived_match = None`), so
                            -- `if derived_match:` only logs and falls
                            -- through to the exact-match return.
                            match (none : Option String) with
                            | some dm => .ok (Channel.from_parts group dm)
                            | none => .ok (Channel.from_parts group name)
                          else .ok (Channel.from_parts group name)
                        else .error (resolveErrMsg spec instance_name)
  | _, _ => .error (resolveErrMsg spec instance_name)

/-! ## §5  Derived-channel creation
(`tracetool/processing/channel_utils.py`) -/

/-- Arithmetic on possibly-missing samples: NaN propagates. -/
def addV : Val → Val → Val
  | some a, some b => some (a + b)
  | _, _ => none

def subV : Val → Val → Val
  | some a, some b => some (a - b)
  | _, _ => none

/-- Scalar multiplication with NaN propagation. -/
def smulV (c : ℚ) : Val → Val
  | some a => some (c * a)
  | none => none

/-- Division; a zero divisor produces a non-finite float in numpy, which
the model folds into the missing value. -/
def divV : Val → ℚ → Val
  | some a, b => if b = 0 then none else some (a / b)
  | none, _ => none

/-- The valid (non-missing) entries of a column together with their
indices. -/
def validEntries (l : Col) : List (ℕ × ℚ) :=
  l.enum.filterMap (fun p => p.2.map (fun q => (p.1, q)))

/-- `pd.Series(x).interpolate().bfill().ffill()`: interior missing values
get linear interpolation between the nearest valid neighbours,
missing values after the last valid sample repeat it (the forward fill
built into `interpolate()`), missing values before the first valid
sample copy it (`bfill`), and an all-missing column stays missing. -/
def interpolateCol (l : Col) : Col :=
  l.enum.map (fun p =>
    match p.2 with
    | some q => some q
    | none =>
        match ((validEntries l).filter (fun e => e.1 < p.1)).getLast?,
              ((validEntries l).filter (fun e => p.1 < e.1)).head? with
        | some (j, a), some (k, b) =>
            some (a + (b - a) * ((p.1 : ℚ) - (j : ℚ)) / ((k : ℚ) - (j : ℚ)))
        | some (_, a), none => some a
        | none, some (_, b) => some b
        | none, none => none)

/-- `np.nanmean(np.stack(arrays), axis=0)`: the elementwise mean over the
valid values at each index; an index where every array is missing stays
missing (numpy's all-NaN slice). -/
def nanMean (arrays : List Col) : Col :=
  (List.range ((arrays.head?.map List.length).getD 0)).map (fun i =>
    let vals := arrays.filterMap (fun a => (a[i]?).bind id)
    if vals.isEmpty then none else some (vals.sum / (vals.length : ℚ)))

/-- One `np.gradient(f, t)` sample: first-order one-sided differences at
the edges, the second-order accurate nonuniform central difference in
the interior (the formula of the numpy documentation). -/
def gradAt (t : List ℚ) (f : Col) (i : ℕ) : Val :=
  let fv : ℕ → Val := fun j => (f[j]?).bind id
  let tv : ℕ → ℚ := fun j => (t[j]?).getD 0
  if i = 0 then divV (subV (fv 1) (fv 0)) (tv 1 - tv 0)
  else if i = f.length - 1 then
    divV (subV (fv i) (fv (i - 1))) (tv i - tv (i - 1))
  else
    let hd := tv i - tv (i - 1)
    let hs := tv (i + 1) - tv i
    divV (addV (smulV (hs * hs) (fv (i + 1)))
          (addV (smulV (hd * hd - hs * hs) (fv i))
                (smulV (-(hd * hd)) (fv (i - 1)))))
      (hs * hd * (hd + hs))

/-- `np.gradient(f, t)`; numpy raises when the coordinate array does not
match or when fewer than two samples are given. -/
def npGradient (t : List ℚ) (f : Col) : Except String Col :=
  if f.length ≠ t.length then .error "gradient: shape mismatch"
  else if f.length < 2 then
    .error "gradient: at least 2 elements are required"
  else .ok ((List.range f.length).map (gradAt t f))

/-- `compute_derivative(time, values, order)`
(`tracengine/utils/signal_processing.py`): `np.gradient` applied
`order` times against the same time axis (`for _ in range(order)`;
a non-positive order applies it zero times). -/
def compute_derivative (t : List ℚ) (values : Col) (order : ℤ) :
    Except String Col :=
  Nat.rec (motive := fun _ => Col → Except String Col)
    (fun v => .ok v)
    (fun _ ih v => (npGradient t v).bind ih)
    order.toNat values

/-- A registered processor, already instantiated:
`processor_cls().process(values, sampling_rate, **params)`.  scipy-backed
processors are external to the repository, so the function is abstract;
an `error` models a raised exception. -/
abbrev Processor : Type := Col → ℚ → Params → Except String Col

/-- The ambient collaborators of the provenance engine: the processor
registry (`get_processor`) and the pandas time-axis parser (see the file
header). -/
structure Ctx : Type where
  getProcessor : String → Option Processor
  toTimeSec : Col → Option (List ℚ)

/-- A raised Python exception, by type and message. -/
inductive PyErr : Type
  | keyError (msg : String)
  | valueError (msg : String)
  | error (msg : String)
deriving DecidableEq

/-- `get_derived_name(base_name, operation, params)`
(channel_utils.py, lines 38-68): the deterministic suffix table. -/
def get_derived_name (base_name operation : String) (params : Params) :
    String :=
  if operation = "butter" then
    base_name ++ "_bf" ++ toString (params.getInt "cutoff" 10)
  else if operation = "savitzky_golay" then base_name ++ "_sg"
  else if operation = "rolling_mean" then
    base_name ++ "_rm" ++ toString (params.getInt "window_size" 5)
  else if operation = "derivative" then
    base_name ++ "_d" ++ toString (params.getInt "order" 1)
  else if operation = "detrend" then base_name ++ "_dt"
  else if operation = "resample" then
    base_name ++ "_rs" ++ toString (params.getInt "target_hz" 100)
  else base_name ++ "_" ++ operation

/-- `fs = signal_group.sampling_rate or 100.0`: Python `or` replaces
both `None` and `0.0` (falsy) by the fallback. -/
def effectiveRate (sr : Option ℚ) : ℚ :=
  match sr with
  | some q => if q = 0 then 100 else q
  | none => 100

/-- The `# Apply operation` block of `create_derived_channel`
(channel_utils.py, lines 131-149): `"derivative"` is computed in-engine
against the group's time axis; every other operation is dispatched to
the registered processor with the effective sampling rate and the
parameters minus `interpolate_missing`. -/
def applyOperation (ctx : Ctx) (signal_group : SignalGroup)
    (source_data : Col) (operation : String) (params : Params) :
    Except PyErr Col :=
  if operation = "derivative" then
    match signal_group.data.find? "utc" with
    | none => .error (.keyError "utc")
    | some utcCol =>
        match ctx.toTimeSec utcCol with
        | none => .error (.error "time parsing failed")
        | some t_sec =>
            match compute_derivative t_sec source_data
                (params.getInt "order" 1) with
            | .error m => .error (.error m)
            | .ok r => .ok r
  else
    match ctx.getProcessor operation with
    | none => .error (.valueError ("Unknown operation: " ++ operation))
    | some proc =>
        let fs := effectiveRate signal_group.sampling_rate
        let processor_params :=
          params.filter (fun kv => kv.1 ≠ "interpolate_missing")
        match proc source_data fs processor_params with
        | .error m => .error (.error m)
        | .ok r => .ok r

/-- The derived-name choice of `create_derived_channel`
(channel_utils.py, lines 113-117): `if custom_suffix:` is Python
truthiness, so an empty suffix falls back to the generated name. -/
def derivedNameOf (source_channel operation : String) (params : Params)
    (custom_suffix : Option String) : String :=
  match custom_suffix with
  | some s =>
      if s = "" then get_derived_name source_channel operation params
      else source_channel ++ "_" ++ s
  | none => get_derived_name source_channel operation params

/-- `create_derived_channel(run, group_name, source_channel, operation,
params, custom_suffix)` (channel_utils.py, lines 76-166).  Errors carry
the run state at the moment of the raise — every check precedes every
mutation, so the state is the input state.  On success the new column is
written into the owning group and the provenance entry is recorded under
the new channel's id, with the single source as parent. -/
def create_derived_channel (ctx : Ctx) (run : RunData)
    (group_name source_channel operation : String) (params : Params)
    (custom_suffix : Option String := none) :
    Except (PyErr × RunData) (Channel × RunData) :=
  match run.signals.find? group_name with
  | none =>
      .error (.keyError ("SignalGroup " ++ group_name ++
        " not found in run"), run)
  | some signal_group =>
      match signal_group.data.find? source_channel with
      | none =>
          .error (.keyError ("Channel " ++ source_channel ++
            " not found in group " ++ group_name), run)
      | some raw_data =>
          match applyOperation ctx signal_group
              (if params.getTruthy "interpolate_missing" then
                interpolateCol raw_data
              else raw_data) operation params with
          | .error e => .error (e, run)
          | .ok result =>
              .ok (Channel.from_parts group_name
                  (derivedNameOf source_channel operation params
                    custom_suffix),
                { run with
                  signals := run.signals.set group_name
                    { signal_group with
                      data := signal_group.data.set
                        (derivedNameOf source_channel operation params
                          custom_suffix) result },
                  channel_provenance := run.channel_provenance.set
                    (Channel.from_parts group_name
                      (derivedNameOf source_channel operation params
                        custom_suffix)).id
                    ⟨[group_name ++ ":" ++ source_channel], operation,
                      params⟩ })

/-- The source-collection loop of `create_averaged_channel`: resolve each
`(group, channel)` pair, optionally interpolate, and accumulate the data
arrays and the parent ids. -/
def collectSources (run : RunData) :
    List (String × String) → Bool → Except PyErr (List Col × List String)
  | [], _ => .ok ([], [])
  | (group_name, channel_name) :: rest, interp =>
      match run.signals.find? group_name with
      | none => .error (.keyError ("SignalGroup " ++ group_name ++
          " not found"))
      | some signal_group =>
          match signal_group.data.find? channel_name with
          | none => .error (.keyError ("Channel " ++ channel_name ++
              " not found in " ++ group_name))
          | some col =>
              match collectSources run rest interp with
              | .error e => .error e
              | .ok (ds, ps) =>
                  .ok ((if interp then interpolateCol col else col) :: ds,
                    (group_name ++ ":" ++ channel_name) :: ps)

/-- `create_averaged_channel(run, source_channels, target_group,
output_name, interpolate_missing)` (channel_utils.py, lines 198-273).
The length guard is Python's `len(set(lengths)) > 1`; as in
`create_derived_channel`, errors carry the (unmodified) run state. -/
def create_averaged_channel (run : RunData)
    (source_channels : List (String × String))
    (target_group output_name : String)
    (interpolate_missing : Bool := true) :
    Except (PyErr × RunData) (Channel × RunData) :=
  if source_channels.length < 2 then
    .error (.valueError "Need at least 2 channels to average", run)
  else
    match collectSources run source_channels interpolate_missing with
    | .error e => .error (e, run)
    | .ok (data_arrays, parent_ids) =>
        if 1 < (data_arrays.map List.length).dedup.length then
          .error (.valueError ("Channel lengths differ: " ++
            toString (data_arrays.map List.length)), run)
        else
          match run.signals.find? target_group with
          | none => .error (.keyError ("Target group " ++ target_group ++
              " not found"), run)
          | some tg =>
              .ok (Channel.from_parts target_group output_name,
                { run with
                  signals := run.signals.set target_group
                    { tg with
                      data := tg.data.set output_name
                        (nanMean data_arrays) },
                  channel_provenance := run.channel_provenance.set
                    (Channel.from_parts target_group output_name).id
                    ⟨parent_ids, "average",
                      [("interpolate_missing",
                        .bool interpolate_missing)]⟩ })

/-! ## §6  Provenance reachability

The `parents` edges of a provenance map, their transitive closure, and
acyclicity — the notions quantified over by the claims about the
provenance DAG. -/

/-- One lineage edge: `b` is a recorded parent of `a`. -/
def parentStep (prov : Dict ChannelProvenance) (a b : String) : Prop :=
  ∃ pr, prov.find? a = some pr ∧ b ∈ pr.parents

/-- `b` is a transitive ancestor of `a` along recorded `parents` edges. -/
def Reaches (prov : Dict ChannelProvenance) : String → String → Prop :=
  Relation.TransGen (parentStep prov)

/-- No channel id reaches itself via `parents`. -/
def Acyclic (prov : Dict ChannelProvenance) : Prop :=
  ∀ c, ¬ Reaches prov c c

/-- A channel id is *safe* when neither it nor any of its ancestors lies
on a cycle. -/
def Safe (prov : Dict ChannelProvenance) (c : String) : Prop :=
  ¬ ∃ d, (c = d ∨ Reaches prov c d) ∧ Reaches prov d d

/-! ## §7  Recompute-on-load (`tracengine/data/loader.py`)

`_topological_sort_channels` (lines 498-525) builds two dicts by
iterating the provenance map and then runs Kahn's algorithm.  The two
dicts are modelled by their lookup functions; the comments record the
loop each closed form mirrors. -/

/-- The recorded parents of a channel id (`[]` when untracked). -/
def parentsOf (prov : Dict ChannelProvenance) (c : String) : List String :=
  match prov.find? c with
  | some pr => pr.parents
  | none => []

/-- The final value of `graph[p]`: the loop
`for ch, prov in provenance.items(): for parent in prov.parents:
if parent in graph: graph[parent].append(ch)` appends `ch` to
`graph[parent]` once per occurrence of `parent`, in insertion order of
`ch`; keys of `graph` are exactly the provenance keys. -/
def graphOf (prov : Dict ChannelProvenance) (p : String) : List String :=
  if p ∈ prov.keys then
    prov.foldr (fun cpr acc =>
      cpr.2.parents.filterMap
        (fun q => if q = p then some cpr.1 else none) ++ acc) []
  else []

/-- The final value of `in_degree[c]`: the loop
`for ch, prov: for parent in prov.parents: if parent in in_degree:
in_degree[ch] += 1` counts the tracked parent occurrences of `c`. -/
def trackedCount (prov : Dict ChannelProvenance) (c : String) : ℕ :=
  (parentsOf prov c).countP (fun p => decide (p ∈ prov.keys))

/-- `queue = [ch for ch, deg in in_degree.items() if deg == 0]`
(dict iteration order = provenance insertion order). -/
def initQueue (prov : Dict ChannelProvenance) : List String :=
  prov.keys.filter (fun c => trackedCount prov c = 0)

/-- The body of `while queue:` — `ch = queue.pop(0)` was already split
off by the caller; for each `neighbor in graph.get(ch, [])` decrement
its in-degree and, when it reaches exactly `0`, append it to the live
queue. -/
def kahnVisit (indeg : String → ℤ) (queue : List String)
    (children : List String) : (String → ℤ) × List String :=
  children.foldl (fun st n =>
    let d := st.1 n - 1
    ((fun x => if x = n then d else st.1 x),
     if d = 0 then st.2 ++ [n] else st.2))
    (indeg, queue)

/-- The `while queue:` loop of Kahn's algorithm, with explicit fuel.
Each iteration moves one id into `result` and ids enter the queue at
most once, so `prov.length` units of fuel always outlast the loop
(`kahnLoop_inv` below makes this precise: the fuel-exhausted exit is
only reached with an empty queue). -/
def kahnLoop (graph : String → List String) :
    ℕ → (String → ℤ) → List String → List String → List String
  | 0, _, _, result => result
  | _ + 1, _, [], result => result
  | fuel + 1, indeg, ch :: rest, result =>
      let st := kahnVisit indeg rest (graph ch)
      kahnLoop graph fuel st.1 st.2 (result ++ [ch])

/-- `_topological_sort_channels(provenance)` (loader.py, lines
498-525). -/
def topological_sort_channels (prov : Dict ChannelProvenance) :
    List String :=
  kahnLoop (graphOf prov) prov.length
    (fun c => (trackedCount prov c : ℤ)) (initQueue prov) []

/-- Write one column of one group: the run after
`signal_group.data[channel_name] = result`. -/
def setCol (run : RunData) (group_name : String) (sg : SignalGroup)
    (channel_name : String) (w : Col) : RunData :=
  { run with
    signals := run.signals.set group_name
      { sg with data := sg.data.set channel_name w } }

/-- The `try:` body of one `_recompute_derived_channels` iteration
(loader.py, lines 472-492): `"derivative"` recomputes in-engine against
the group's time axis; other operations go to the registered processor
with the effective sampling rate and the recorded parameters.  `none`
models both a missing registration (`continue`) and a caught
exception. -/
def channelResult (ctx : Ctx) (signal_group : SignalGroup)
    (prov : ChannelProvenance) (parent_data : Col) : Option Col :=
  if prov.operation = "derivative" then
    match signal_group.data.find? "utc" with
    | none => none
    | some utcCol =>
        match ctx.toTimeSec utcCol with
        | none => none
        | some t_sec =>
            match compute_derivative t_sec parent_data
                (prov.parameters.getInt "order" 1) with
            | .error _ => none
            | .ok r => some r
  else
    match ctx.getProcessor prov.operation with
    | none => none
    | some proc =>
        match proc parent_data
            (effectiveRate signal_group.sampling_rate)
            prov.parameters with
        | .error _ => none
        | .ok r => some r

/-- The guard chain of one `_recompute_derived_channels` iteration
(loader.py, lines 443-470), every `continue` returning `none`: look up
the provenance entry, split the channel id, find the owning group, take
the single primary parent, reject a cross-group parent, and read the
parent column. -/
def stepView (run : RunData) (channel_id : String) :
    Option (String × String × SignalGroup × ChannelProvenance × Col) :=
  (run.channel_provenance.find? channel_id).bind fun prov =>
  (splitId channel_id).bind fun gn =>
  (run.signals.find? gn.1).bind fun signal_group =>
  prov.parents.head?.bind fun parent_id =>
  (splitId parent_id).bind fun pgn =>
  if pgn.1 ≠ gn.1 then none
  else (signal_group.data.find? pgn.2).bind fun parent_data =>
    some (gn.1, gn.2, signal_group, prov, parent_data)

/-- One iteration of the `for channel_id in sorted_channels:` loop of
`_recompute_derived_channels` (loader.py, lines 442-495): when every
guard passes and the operation succeeds, write the result into the
channel's own column; otherwise leave the run untouched.  (pandas
rejecting a result whose length differs from the table is the one
unmodelled exception path — no verified claim reads a mismatched-length
write.) -/
def processChannel (ctx : Ctx) (run : RunData) (channel_id : String) :
    RunData :=
  match stepView run channel_id with
  | none => run
  | some (group_name, channel_name, signal_group, prov, parent_data) =>
      match channelResult ctx signal_group prov parent_data with
      | none => run
      | some result =>
          setCol run group_name signal_group channel_name result

/-- `_recompute_derived_channels(run)` (loader.py, lines 427-495). -/
def recompute_derived_channels (ctx : Ctx) (run : RunData) : RunData :=
  if run.channel_provenance.isEmpty then run
  else
    (topological_sort_channels run.channel_provenance).foldl
      (processChannel ctx) run

/-! ## §8  Pipeline runner (`tracetool/engine/runner.py`,
`tracetool/engine/steps.py`)

Annotator and compute plugins are external collaborators; each is
modelled as a function from the run state to either a raised exception
(`error`, its message) or its output.  Registry lookup and class
instantiation (`annotator_cls()` / `.run(run)`) are collapsed into that
function.  Plugins are modelled as readers of the run — the runner's own
mutations (binding merges and annotation stores) are modelled exactly. -/

/-- `PipelineStepResult` (steps.py); `output` and `duration_seconds`
carry no verified behaviour. -/
structure PipelineStepResult : Type where
  step_name : String
  step_type : String
  success : Bool
  message : String := ""
deriving DecidableEq

/-- `PreprocessingStep` (steps.py): each operation config is a dict with
an `"op"` key plus parameters. -/
structure PreprocessingStep : Type where
  channel : String
  operations : List Params := []
deriving DecidableEq

/-- `AnnotatorStep` (steps.py).  `channel_bindings` is used as an
instance-keyed map of role maps (cf. `RunConfig.channel_bindings`). -/
structure AnnotatorStep : Type where
  name : String
  channel_bindings : Option (Dict (Dict String)) := none
  enabled : Bool := true
deriving DecidableEq

/-- `ComputeStep` (steps.py). -/
structure ComputeStep : Type where
  name : String
  depends_on : List String := []
  channel_bindings : Option (Dict (Dict String)) := none
  event_bindings : Option (Dict (Dict String)) := none
  enabled : Bool := true
deriving DecidableEq

/-- `PipelineConfig`: the ordered step lists consumed by the runner
(export configuration is only printed, never executed). -/
structure PipelineConfig : Type where
  name : String
  preprocessing : List PreprocessingStep := []
  annotators : List AnnotatorStep := []
  compute : List ComputeStep := []

/-- `RunResult` (runner.py). -/
structure RunResult : Type where
  run_id : String
  subject : String
  session : String
  run : String
  success : Bool
  step_results : List PipelineStepResult := []
  error : Option String := none
deriving DecidableEq

/-- `PipelineResult` (runner.py). -/
structure PipelineResult : Type where
  pipeline_name : String
  total_runs : ℕ
  successful_runs : ℕ
  failed_runs : ℕ
  run_results : List RunResult := []
deriving DecidableEq

/-- `PipelineResult.success_rate` (runner.py, lines 52-56). -/
def PipelineResult.success_rate (r : PipelineResult) : ℚ :=
  if r.total_runs = 0 then 0
  else (r.successful_runs : ℚ) / (r.total_runs : ℚ)

/-- The runner's collaborators: the processing context plus the
annotator and compute registries.  A compute plugin's tabular output is
abstracted to its row count (`None` allowed), which is all the runner
reads of it. -/
structure RunnerCtx : Type where
  ctx : Ctx
  getAnnotator : String → Option (RunData → Except String (List Event))
  getCompute : String → Option (RunData → Except String (Option ℕ))

/-- The message a caught exception contributes to a step result
(`str(e)`; the quote decoration of `str(KeyError)` is not modelled). -/
def PyErr.msg : PyErr → String
  | .keyError m => m
  | .valueError m => m
  | .error m => m

/-- `s.split(sep)` (full split), character-list worker. -/
def splitAllChars (sep : Char) : List Char → List (List Char)
  | [] => [[]]
  | c :: rest =>
      let r := splitAllChars sep rest
      if c = sep then [] :: r
      else
        match r with
        | [] => [[c]]
        | h :: t => (c :: h) :: t

/-- `step.channel.split(":")` in `_run_preprocessing`. -/
def splitColon (s : String) : List String :=
  (splitAllChars ':' s.toList).map List.asString

/-- `op_config.get("op", "unknown")`: the operation name of one
preprocessing operation config (a non-string value matches no registered
operation). -/
def opNameOf (op_config : Params) : String :=
  match op_config.find? "op" with
  | some (.str s) => s
  | some _ => "<non-string operation>"
  | none => "unknown"

/-- `{k: v for k, v in op_config.items() if k != "op"}`. -/
def opParamsOf (op_config : Params) : Params :=
  op_config.filter (fun kv => kv.1 ≠ "op")

/-- The operation chain of `_run_preprocessing` (runner.py, lines
255-270): thread `create_derived_channel` through the operation list,
feeding each result's name to the next operation (`if result:` is always
truthy for a returned `Channel`). -/
def applyOps (ctx : Ctx) (group_name : String) :
    RunData → String → List Params →
    Except (PyErr × RunData) (String × RunData)
  | run, current, [] => .ok (current, run)
  | run, current, op_config :: rest =>
      match create_derived_channel ctx run group_name current
          (opNameOf op_config) (opParamsOf op_config) with
      | .error e => .error e
      | .ok (ch, run') => applyOps ctx group_name run' ch.name rest

/-- `_run_preprocessing(run, step)` (runner.py, lines 240-287): parse the
channel id (a full `split(":")` — exactly two parts required), run the
chain, convert any exception into a failed step result. -/
def runPreprocessingStep (rctx : RunnerCtx) (run : RunData)
    (step : PreprocessingStep) : PipelineStepResult × RunData :=
  let sname := "preprocess:" ++ step.channel
  match splitColon step.channel with
  | [group_name, channel_name] =>
      match applyOps rctx.ctx group_name run channel_name
          step.operations with
      | .ok (_, run') =>
          (⟨sname, "preprocessing", true,
            "Applied " ++ toString step.operations.length ++
              " operations"⟩, run')
      | .error (e, run') => (⟨sname, "preprocessing", false, e.msg⟩, run')
  | _ =>
      (⟨sname, "preprocessing", false,
        "Invalid channel format: " ++ step.channel⟩, run)

/-- The binding-merge prologue shared by `_run_annotator` and
`_run_compute` (runner.py, lines 298-302 and 338-342):
`if step.channel_bindings:` (an empty dict is falsy), create a
`RunConfig` when the run has none, then
`run.run_config.channel_bindings.update(step.channel_bindings)`. -/
def applyStepBindings (run : RunData)
    (bs? : Option (Dict (Dict String))) : RunData :=
  match bs? with
  | none => run
  | some bs =>
      if bs.isEmpty then run
      else
        { run with run_config := some ({ run.run_config.getD {} with
            channel_bindings :=
              (run.run_config.getD {}).channel_bindings.updateAll bs }) }

/-- `_run_annotator(run, step)` (runner.py, lines 289-327). -/
def runAnnotatorStep (rctx : RunnerCtx) (run : RunData)
    (step : AnnotatorStep) : PipelineStepResult × RunData :=
  match rctx.getAnnotator step.name with
  | none =>
      (⟨step.name, "annotator", false,
        "Annotator not found: " ++ step.name⟩, run)
  | some annotator =>
      match annotator (applyStepBindings run step.channel_bindings) with
      | .error m =>
          (⟨step.name, "annotator", false, m⟩,
           applyStepBindings run step.channel_bindings)
      | .ok events =>
          (⟨step.name, "annotator", true,
            "Detected " ++ toString events.length ++ " events"⟩,
           { applyStepBindings run step.channel_bindings with
             annotations := (applyStepBindings run
               step.channel_bindings).annotations.set step.name events })

/-- `_run_compute(run, step)` (runner.py, lines 329-366). -/
def runComputeStep (rctx : RunnerCtx) (run : RunData)
    (step : ComputeStep) : PipelineStepResult × RunData :=
  match rctx.getCompute step.name with
  | none =>
      (⟨step.name, "compute", false,
        "Compute module not found: " ++ step.name⟩, run)
  | some compute =>
      match compute (applyStepBindings run step.channel_bindings) with
      | .error m =>
          (⟨step.name, "compute", false, m⟩,
           applyStepBindings run step.channel_bindings)
      | .ok (some n) =>
          (⟨step.name, "compute", true,
            "Computed " ++ toString n ++ " rows"⟩,
           applyStepBindings run step.channel_bindings)
      | .ok none =>
          (⟨step.name, "compute", true, "No output"⟩,
           applyStepBindings run step.channel_bindings)

/-- The preprocessing phase of `run_single`: accumulate step results; a
failed step raises `RuntimeError(f"Preprocessing failed: ...")`, ending
the run (`some` fatal message). -/
def runPre (rctx : RunnerCtx) :
    List PreprocessingStep → RunData → List PipelineStepResult →
    List PipelineStepResult × RunData × Option String
  | [], run, acc => (acc, run, none)
  | step :: rest, run, acc =>
      match runPreprocessingStep rctx run step with
      | (res, run') =>
          if res.success then runPre rctx rest run' (acc ++ [res])
          else (acc ++ [res], run',
            some ("Preprocessing failed: " ++ res.message))

/-- The annotator phase of `run_single`: disabled steps are skipped and
produce no step result; a failed step raises
`RuntimeError(f"Annotator failed: ...")`. -/
def runAnnots (rctx : RunnerCtx) :
    List AnnotatorStep → RunData → List PipelineStepResult →
    List PipelineStepResult × RunData × Option String
  | [], run, acc => (acc, run, none)
  | step :: rest, run, acc =>
      if step.enabled then
        match runAnnotatorStep rctx run step with
        | (res, run') =>
            if res.success then runAnnots rctx rest run' (acc ++ [res])
            else (acc ++ [res], run',
              some ("Annotator failed: " ++ res.message))
      else runAnnots rctx rest run acc

/-- The `depends_on` check of the compute phase, against the step
results accumulated so far. -/
def depsMet (acc : List PipelineStepResult) (deps : List String) : Bool :=
  deps.all (fun dep => acc.any (fun r => r.step_name = dep && r.success))

/-- The compute phase of `run_single`: disabled steps are skipped; an
unmet dependency records a non-fatal failed result and continues; a
failed executed step raises `RuntimeError(f"Compute failed: ...")`. -/
def runComputes (rctx : RunnerCtx) :
    List ComputeStep → RunData → List PipelineStepResult →
    List PipelineStepResult × RunData × Option String
  | [], run, acc => (acc, run, none)
  | step :: rest, run, acc =>
      if step.enabled then
        if depsMet acc step.depends_on then
          match runComputeStep rctx run step with
          | (res, run') =>
              if res.success then runComputes rctx rest run' (acc ++ [res])
              else (acc ++ [res], run',
                some ("Compute failed: " ++ res.message))
        else
          runComputes rctx rest run
            (acc ++ [⟨step.name, "compute", false, "Dependencies not met"⟩])
      else runComputes rctx rest run acc

/-- `run_single(run)` (runner.py, lines 162-238), also returning the
(in Python: in-place mutated) run state. -/
def run_single (rctx : RunnerCtx) (pipe : PipelineConfig)
    (run : RunData) : RunResult × RunData :=
  let run_id := run.subject ++ "_" ++ run.session ++ "_" ++ run.run
  match runPre rctx pipe.preprocessing run [] with
  | (acc, rd, some e) =>
      (⟨run_id, run.subject, run.session, run.run, false, acc, some e⟩, rd)
  | (acc, rd, none) =>
      match runAnnots rctx pipe.annotators rd acc with
      | (acc2, rd2, some e) =>
          (⟨run_id, run.subject, run.session, run.run, false, acc2,
            some e⟩, rd2)
      | (acc2, rd2, none) =>
          match runComputes rctx pipe.compute rd2 acc2 with
          | (acc3, rd3, some e) =>
              (⟨run_id, run.subject, run.session, run.run, false, acc3,
                some e⟩, rd3)
          | (acc3, rd3, none) =>
              (⟨run_id, run.subject, run.session, run.run, true, acc3,
                none⟩, rd3)

/-- `fnmatch.fnmatch`-style glob matching for `*`, `?` and literal
characters (character classes do not occur in any verified pattern and
are treated literally).  `*` matches an arbitrary prefix: the remaining
pattern may consume any suffix of the string. -/
def globMatch : List Char → List Char → Bool
  | [], s => s.isEmpty
  | '*' :: ps, s => s.tails.any (fun t => globMatch ps t)
  | '?' :: _, [] => false
  | '?' :: ps, _ :: cs => globMatch ps cs
  | _ :: _, [] => false
  | p :: ps, c :: cs => (p = c) && globMatch ps cs

/-- `fnmatch.fnmatch(name, pat)`. -/
def fnmatch (name pat : String) : Bool :=
  globMatch pat.toList name.toList

/-- The batch loop of `run` (runner.py, lines 136-149): execute
`run_single` per run in order; with `stop_on_error`, stop after the
first failing run. -/
def runBatch (rctx : RunnerCtx) (pipe : PipelineConfig) :
    List RunData → Bool → List RunResult
  | [], _ => []
  | r :: rest, stop =>
      if stop && !(run_single rctx pipe r).1.success then
        [(run_single rctx pipe r).1]
      else (run_single rctx pipe r).1 :: runBatch rctx pipe rest stop

/-- `_dry_run(runs)` (runner.py, lines 368-411): prints the plan and
reports every filtered run as successful with no per-run results. -/
def dryRunResult (pipe : PipelineConfig) (runs : List RunData) :
    PipelineResult :=
  { pipeline_name := pipe.name, total_runs := runs.length,
    successful_runs := runs.length, failed_runs := 0, run_results := [] }

/-- `PipelineRunner.run(runs, run_filter, dry_run, stop_on_error)`
(runner.py, lines 109-160). -/
def pipeline_run (rctx : RunnerCtx) (pipe : PipelineConfig)
    (runs : List RunData) (run_filter : String := "*")
    (dry_run : Bool := false) (stop_on_error : Bool := false) :
    PipelineResult :=
  if dry_run then
    dryRunResult pipe (runs.filter (fun r => fnmatch r.run run_filter))
  else
    { pipeline_name := pipe.name
      total_runs := (runs.filter (fun r => fnmatch r.run run_filter)).length
      successful_runs :=
        (runBatch rctx pipe (runs.filter (fun r => fnmatch r.run run_filter))
          stop_on_error).countP (·.success)
      failed_runs :=
        (runBatch rctx pipe (runs.filter (fun r => fnmatch r.run run_filter))
            stop_on_error).length -
          (runBatch rctx pipe (runs.filter (fun r => fnmatch r.run run_filter))
            stop_on_error).countP (·.success)
      run_results :=
        runBatch rctx pipe (runs.filter (fun r => fnmatch r.run run_filter))
          stop_on_error }

/-! ## §9  Concrete fixtures used by witnesses and counterexamples -/

/-- A three-sample `motion` group holding a time column and one raw
channel `X`, sampled at 100 Hz. -/
def exGroup : SignalGroup :=
  { name := "motion", modality := "motion"
    data := [("utc", [some 0, some (1/100), some (2/100)]),
             ("X", [some 0, some 1, some 4])]
    sampling_rate := some 100 }

/-- A run holding only the raw `motion` group. -/
def exRun : RunData :=
  { subject := "s1", session := "ses1", run := "001"
    signals := [("motion", exGroup)]
    annotations := [], channel_provenance := [], run_config := none }

/-- A channel requirement for the semantic role `signal`. -/
def exSpec : ChannelSpec := { semantic_role := "signal" }

/-- A config whose binding for instance `i` names a column that does not
exist in the `motion` group. -/
def cfgBound : RunConfig :=
  { channel_bindings := [("i", [("signal", "motion:missing")])] }

/-- A config whose binding for instance `i` resolves to `motion:X`. -/
def cfgOK : RunConfig :=
  { channel_bindings := [("i", [("signal", "motion:X")])] }

/-- The §8 scenario provenance: `motion:X_bf10` derived from `motion:X`
by `butter(cutoff=10)`, and `motion:X_bf10_d1` derived from it by
`derivative(order=1)`. -/
def exProv : Dict ChannelProvenance :=
  [("motion:X_bf10", ⟨["motion:X"], "butter", [("cutoff", .int 10)]⟩),
   ("motion:X_bf10_d1",
     ⟨["motion:X_bf10"], "derivative", [("order", .int 1)]⟩)]

/-- A concrete context: `butter` is registered (as a length-preserving
stand-in processor) and time parsing reads samples as second counts. -/
def exCtx : Ctx :=
  { getProcessor := fun name =>
      if name = "butter" then some (fun v _ _ => .ok v) else none
    toTimeSec := fun col => some (col.map (fun v => v.getD 0)) }

/-- The scenario run: raw `X` plus the two provenance entries. -/
def exRunP : RunData := { exRun with channel_provenance := exProv }

def exGroupAB : SignalGroup :=
  { name := "g", modality := "g"
    data := [("utc", [some 0, some 1]),
             ("A", [some 1, some 2]),
             ("B", [some 3, none]),
             ("C3", [some 0, some 0, some 0])]
    sampling_rate := some 100 }

def exRunAB : RunData :=
  { subject := "s1", session := "ses1", run := "001"
    signals := [("g", exGroupAB)]
    annotations := [], channel_provenance := [], run_config := none }

def rctx0 : RunnerCtx :=
  { ctx := exCtx, getAnnotator := fun _ => none, getCompute := fun _ => none }

def pipe0 : PipelineConfig := { name := "p" }

def bindingsOf (run : RunData) : Dict (Dict String) :=
  match run.run_config with
  | some c => c.channel_bindings
  | none => []

def exceptState {β : Type} :
    Except (PyErr × RunData) (β × RunData) → RunData
  | .error (_, r) => r
  | .ok (_, r) => r

def annOK : RunData → Except String (List Event) := fun _ => .ok []

def rctxA : RunnerCtx :=
  { ctx := exCtx
    getAnnotator := fun n => if n = "ann" then some annOK else none
    getCompute := fun _ => none }

def stepA : AnnotatorStep :=
  { name := "ann", channel_bindings := some [("inst", [("role", "g:A")])] }

def pipeA : PipelineConfig := { name := "p", annotators := [stepA] }

def runWithCfg : RunData :=
  { exRun with
    run_config := some { channel_bindings := [("other", [("r", "x")])] } }

def annSel : RunData → Except String (List Event) := fun rd =>
  if rd.run = "001" then .error "boom" else .ok []

def rctxB : RunnerCtx :=
  { ctx := exCtx
    getAnnotator := fun n => if n = "ann" then some annSel else none
    getCompute := fun _ => none }

def stepB : AnnotatorStep := { name := "ann" }

def pipeB : PipelineConfig := { name := "p", annotators := [stepB] }

def exRun2 : RunData := { exRun with run := "002" }

/-! ## §10  Verification infrastructure

Definitions used only to state and prove properties of the embedded
functions: the Kahn loop invariant and a column-lookup helper, plus the
concrete runs exercising the cycle and the `utc`-overwrite scenarios. -/

/-- Tracked-parent occurrences of `c` whose parent id has already been
emitted into `res` by the Kahn loop. -/
def resCount (prov : Dict ChannelProvenance) (res : List String)
    (c : String) : ℕ :=
  (parentsOf prov c).countP (fun p => decide (p ∈ res))

/-- Loop invariant of Kahn's algorithm as implemented by
`_topological_sort_channels`: `res` is the emitted prefix of the order
and `queue` the live queue; `indeg` holds each tracked id's remaining
in-degree, ids are emitted at most once, an id sits in `res` or the
queue exactly when all its tracked parent occurrences have been
emitted, and every emitted id's tracked parents precede it. -/
structure KahnInv (prov : Dict ChannelProvenance) (indeg : String → ℤ)
    (queue res : List String) : Prop where
  res_nodup : res.Nodup
  queue_nodup : queue.Nodup
  disj : ∀ c ∈ queue, c ∉ res
  res_sub : ∀ c ∈ res, c ∈ prov.keys
  queue_sub : ∀ c ∈ queue, c ∈ prov.keys
  deg : ∀ c ∈ prov.keys,
    indeg c = (trackedCount prov c : ℤ) - (resCount prov res c : ℤ)
  disc : ∀ c ∈ prov.keys,
    (c ∈ res ∨ c ∈ queue) ↔ trackedCount prov c = resCount prov res c
  orderInv : ∀ i (hi : i < res.length),
    ∀ p ∈ parentsOf prov (res.get ⟨i, hi⟩),
      p ∈ prov.keys → p ∈ res.take i

/-- Look up one column of one group of a run (`None` when the group or
the column is absent). -/
def colOf (run : RunData) (g n : String) : Option Col :=
  match run.signals.find? g with
  | none => none
  | some sg => sg.data.find? n

/-- A two-sample group `g` with a numeric time column and a raw channel
`x`. -/
def cexGroup5 : SignalGroup :=
  { name := "g", modality := "g"
    data := [("utc", [some 0, some 1]), ("x", [some 0, some 10])]
    sampling_rate := some 100 }

/-- A provenance map whose tracked channel `g:utc` overwrites the `utc`
time column of its own group, while `g:v` is a derivative that reads
that time column. -/
def cexProv5 : Dict ChannelProvenance :=
  [("g:v", ⟨["g:x"], "derivative", []⟩),
   ("g:utc", ⟨["g:x"], "butter", []⟩)]

/-- The run carrying `cexProv5`. -/
def cexRun5 : RunData :=
  { subject := "s1", session := "ses1", run := "001"
    signals := [("g", cexGroup5)]
    annotations := [], channel_provenance := cexProv5, run_config := none }

/-- A provenance map with a two-cycle `g:a ↔ g:b` and one safe channel
`g:c` whose only parent is the untracked raw column `g:x`. -/
def cycProv : Dict ChannelProvenance :=
  [("g:a", ⟨["g:b"], "butter", []⟩),
   ("g:b", ⟨["g:a"], "butter", []⟩),
   ("g:c", ⟨["g:x"], "butter", []⟩)]

/-- The run carrying `cycProv`. -/
def cycRun : RunData :=
  { subject := "s1", session := "ses1", run := "001"
    signals := [("g", cexGroup5)]
    annotations := [], channel_provenance := cycProv, run_config := none }

/-! # Part B: theorems -/

/-! ### Dictionary and id-splitting lemmas -/

theorem Dict.find?_set_self {α : Type} (d : Dict α) (k : String) (v : α) :
    (d.set k v).find? k = some v := by
  induction d with
  | nil => simp [Dict.set, Dict.find?]
  | cons kv rest ih =>
      by_cases h : kv.1 = k <;> simp [Dict.set, Dict.find?, h, ih]

theorem Dict.find?_set_ne {α : Type} (d : Dict α) (k x : String) (v : α)
    (hx : x ≠ k) : (d.set k v).find? x = d.find? x := by
  induction d with
  | nil => simp [Dict.set, Dict.find?, Ne.symm hx]
  | cons kv rest ih =>
      rcases kv with ⟨k', v'⟩
      by_cases h : k' = k
      · subst h
        simp [Dict.set, Dict.find?, Ne.symm hx]
      · simp [Dict.set, Dict.find?, h, ih]

theorem Dict.find?_set {α : Type} (d : Dict α) (k x : String) (v : α) :
    (d.set k v).find? x = if x = k then some v else d.find? x := by
  by_cases h : x = k
  · subst h; simp [Dict.find?_set_self]
  · simp [h, Dict.find?_set_ne d k x v h]

/-- Re-assigning the value a key already has is a no-op (the assignment
replaces the first binding, which already carries that value). -/
theorem Dict.set_eq_self_of_find? {α : Type} (d : Dict α) (k : String)
    (v : α) (h : d.find? k = some v) : d.set k v = d := by
  induction d with
  | nil => simp [Dict.find?] at h
  | cons kv rest ih =>
      rcases kv with ⟨k', v'⟩
      by_cases hk : k' = k
      · subst hk
        simp [Dict.find?] at h
        simp [Dict.set, h]
      · simp [Dict.find?, hk] at h
        simp [Dict.set, hk, ih h]

theorem Dict.keys_set_of_containsKey {α : Type} (d : Dict α)
    (k : String) (v : α) (h : d.containsKey k) :
    (d.set k v).keys = d.keys := by
  induction d with
  | nil => simp [Dict.containsKey, Dict.find?] at h
  | cons kv rest ih =>
      rcases kv with ⟨k', v'⟩
      by_cases hk : k' = k
      · subst hk; simp [Dict.set, Dict.keys]
      · simp [Dict.containsKey, Dict.find?, hk] at h
        simp [Dict.set, Dict.keys, hk] at ih ⊢
        exact ih h

theorem Dict.find?_isSome_iff_mem_keys {α : Type} (d : Dict α)
    (k : String) : (d.find? k).isSome ↔ k ∈ d.keys := by
  induction d with
  | nil => simp [Dict.find?, Dict.keys]
  | cons kv rest ih =>
      by_cases h : kv.1 = k <;>
        simp [Dict.find?, Dict.keys, h, ih]
      exact fun hk => (h hk.symm).elim

theorem Dict.find?_eq_none_of_not_mem_keys {α : Type} (d : Dict α)
    (k : String) (h : k ∉ d.keys) : d.find? k = none := by
  cases hf : d.find? k with
  | none => rfl
  | some v =>
      exact absurd ((Dict.find?_isSome_iff_mem_keys d k).mp (by simp [hf])) h

theorem splitIdChars_eq {l a b : List Char}
    (h : splitIdChars l = some (a, b)) : l = a ++ ':' :: b := by
  induction l generalizing a b with
  | nil => simp [splitIdChars] at h
  | cons c rest ih =>
      by_cases hc : c = ':'
      · subst hc
        simp [splitIdChars] at h
        simp [h.1.symm, h.2.symm]
      · rw [splitIdChars, if_neg hc, Option.map_eq_some'] at h
        rcases h with ⟨⟨p1, p2⟩, hp, heq⟩
        have h1 : c :: p1 = a := congrArg Prod.fst heq
        have h2 : p2 = b := congrArg Prod.snd heq
        subst h2
        rw [← h1]
        simp [ih hp]

/-- Distinct channel ids containing a colon split to distinct
(group, name) pairs — each recompute iteration touches only the column
belonging to its own channel id. -/
theorem splitId_inj {s t : String} {g n : String}
    (hs : splitId s = some (g, n)) (ht : splitId t = some (g, n)) :
    s = t := by
  unfold splitId at hs ht
  rw [Option.map_eq_some'] at hs ht
  rcases hs with ⟨⟨a, b⟩, hsc, hseq⟩
  rcases ht with ⟨⟨c, d⟩, htc, hteq⟩
  have hg1 : a.asString = g := congrArg Prod.fst hseq
  have hn1 : b.asString = n := congrArg Prod.snd hseq
  have hg2 : c.asString = g := congrArg Prod.fst hteq
  have hn2 : d.asString = n := congrArg Prod.snd hteq
  have ha : a = c := List.asString_inj.mp (hg1.trans hg2.symm)
  have hb : b = d := List.asString_inj.mp (hn1.trans hn2.symm)
  have h1 := splitIdChars_eq hsc
  have h2 := splitIdChars_eq htc
  have : s.toList = t.toList := by rw [h1, h2, ha, hb]
  exact String.toList_inj.mp this


/-! ### Resolver theorems (claims C4, C7) -/

/-- Exhaustive case analysis of `resolve_channel`: either the binding
chain resolves and the exact bound channel is returned, or the single
trailing `KeyError` is raised. -/
theorem resolve_channel_cases (run : RunData) (spec : ChannelSpec)
    (config : Option RunConfig) (inst : Option String) :
    (∃ cfg s ib cid g n,
       config = some cfg ∧ inst = some s ∧ s ≠ "" ∧
       cfg.channel_bindings.find? s = some ib ∧
       ib.find? spec.semantic_role = some cid ∧
       splitId cid = some (g, n) ∧
       (∃ sg, run.signals.find? g = some sg ∧
         (sg.data.find? n).isSome = true) ∧
       resolve_channel run spec config inst =
         .ok (Channel.from_parts g n)) ∨
    resolve_channel run spec config inst =
      .error (resolveErrMsg spec inst) := by
  unfold resolve_channel
  split
  next cfg s =>
    split
    next => right; rfl
    next hs =>
      split
      next => right; rfl
      next ib hib =>
        split
        next => right; rfl
        next cid hcid =>
          split
          next => right; rfl
          next g n hsplit =>
            split
            next => right; rfl
            next sg hsg =>
              split
              next hcol =>
                left
                refine ⟨cfg, s, ib, cid, g, n, rfl, rfl, hs, hib, hcid,
                  hsplit, ⟨sg, hsg, hcol⟩, ?_⟩
                split
                next => rfl
                next => rfl
              next hcol => right; rfl
  next => right; rfl

/-- The success path of `resolve_channel`, computed from the binding
chain. -/
theorem resolve_channel_ok_of (run : RunData) (spec : ChannelSpec)
    (cfg : RunConfig) (s : String) (ib : Dict String) (cid g n : String)
    (sg : SignalGroup) (hs : s ≠ "")
    (hib : cfg.channel_bindings.find? s = some ib)
    (hcid : ib.find? spec.semantic_role = some cid)
    (hsplit : splitId cid = some (g, n))
    (hsg : run.signals.find? g = some sg)
    (hcol : (sg.data.find? n).isSome = true) :
    resolve_channel run spec (some cfg) (some s) =
      .ok (Channel.from_parts g n) := by
  unfold resolve_channel
  simp only [hib, hcid, hsplit, hsg, hcol, if_neg hs, if_true]
  split
  next => rfl
  next => rfl

/-- Claim C4 (amended): `resolve_channel` succeeds exactly when the
instance name is truthy, `config.channel_bindings[instance][role]`
exists, the bound id contains `":"`, its group exists in the run and its
name is a column of that group — and then it returns that exact Channel.
Every failure — missing binding as well as unresolvable bound id —
raises the *same* `KeyError` carrying the one message that names the
semantic role and the instance; the code does not raise a distinct
error for the bound-but-unresolvable case (see
`resolver_error_taxonomy_counterexample`). -/
theorem resolver_single_keyerror_characterization (run : RunData)
    (spec : ChannelSpec) (config : Option RunConfig)
    (inst : Option String) :
    (∀ ch, resolve_channel run spec config inst = .ok ch ↔
       (∃ cfg s ib cid g n,
         config = some cfg ∧ inst = some s ∧ s ≠ "" ∧
         cfg.channel_bindings.find? s = some ib ∧
         ib.find? spec.semantic_role = some cid ∧
         splitId cid = some (g, n) ∧
         (∃ sg, run.signals.find? g = some sg ∧
           (sg.data.find? n).isSome = true) ∧
         ch = Channel.from_parts g n)) ∧
    (∀ e, resolve_channel run spec config inst = .error e →
       e = resolveErrMsg spec inst) := by
  constructor
  · intro ch
    constructor
    · intro h
      rcases resolve_channel_cases run spec config inst with
        ⟨cfg, s, ib, cid, g, n, h1, h2, h3, h4, h5, h6, h7, hres⟩ | hres
      · refine ⟨cfg, s, ib, cid, g, n, h1, h2, h3, h4, h5, h6, h7, ?_⟩
        exact (Except.ok.inj (hres.symm.trans h)).symm
      · rw [hres] at h; exact absurd h (by simp)
    · rintro ⟨cfg, s, ib, cid, g, n, h1, h2, h3, h4, h5, h6,
        ⟨sg, hsg, hcol⟩, hch⟩
      subst h1; subst h2; subst hch
      exact resolve_channel_ok_of run spec cfg s ib cid g n sg h3 h4 h5
        h6 hsg hcol
  · intro e he
    rcases resolve_channel_cases run spec config inst with
      ⟨_, _, _, _, _, _, _, _, _, _, _, _, _, hres⟩ | hres
    · rw [hres] at he; exact absurd he (by simp)
    · rw [hres] at he; exact (Except.error.inj he).symm

/-- Counterexample to claim C4 as stated: with a binding present for
instance `i` whose bound id names an existing group but a column that
does not exist, `resolve_channel` raises an error *identical* to the one
raised when no binding exists at all — there is no distinct
`ChannelNotFound` failure, both exits raise the same `KeyError` value. -/
theorem resolver_error_taxonomy_counterexample :
    cfgBound.channel_bindings.find? "i" =
      some [("signal", "motion:missing")] ∧
    (exRun.signals.find? "motion").isSome = true ∧
    exGroup.data.find? "missing" = none ∧
    resolve_channel exRun exSpec (some {}) (some "i") =
      .error (resolveErrMsg exSpec (some "i")) ∧
    resolve_channel exRun exSpec (some cfgBound) (some "i") =
      .error (resolveErrMsg exSpec (some "i")) :=
  ⟨rfl, rfl, rfl, rfl, rfl⟩

/-- Witness for C4: the characterization applied to a config whose
binding resolves, yielding the exact bound channel. -/
theorem resolver_single_keyerror_characterization_witness :
    resolve_channel exRun exSpec (some cfgOK) (some "i") =
      .ok (Channel.from_parts "motion" "X") := by
  have h := resolver_single_keyerror_characterization exRun exSpec
    (some cfgOK) (some "i")
  exact (h.1 (Channel.from_parts "motion" "X")).mpr
    ⟨cfgOK, "i", [("signal", "motion:X")], "motion:X", "motion", "X",
      rfl, rfl, by decide, rfl, rfl, rfl, ⟨exGroup, rfl, rfl⟩, rfl⟩

/-- Claim C7: the `allow_derived` flag is inert.  Two calls identical
except for `spec.allow_derived` return the same result, and with a valid
binding the result is exactly the bound channel — no search for a more
processed variant is performed (the historical search path assigns
`derived_match = None` and is dead). -/
theorem allow_derived_inert (run : RunData) (role : String)
    (b₁ b₂ : Bool) (config : Option RunConfig) (inst : Option String) :
    resolve_channel run ⟨role, b₁⟩ config inst =
      resolve_channel run ⟨role, b₂⟩ config inst ∧
    (∀ cfg s ib cid g n sg,
      config = some cfg → inst = some s → s ≠ "" →
      cfg.channel_bindings.find? s = some ib →
      ib.find? role = some cid →
      splitId cid = some (g, n) →
      run.signals.find? g = some sg →
      (sg.data.find? n).isSome = true →
      resolve_channel run ⟨role, b₁⟩ config inst =
        .ok (Channel.from_parts g n)) := by
  constructor
  · cases b₁ <;> cases b₂ <;> rfl
  · intro cfg s ib cid g n sg h1 h2 hs hib hcid hsplit hsg hcol
    subst h1; subst h2
    exact resolve_channel_ok_of run ⟨role, b₁⟩ cfg s ib cid g n sg hs
      hib hcid hsplit hsg hcol

/-- Witness for C7 at a concrete run and config: flipping
`allow_derived` leaves the result unchanged, and the result is the
exact bound channel. -/
theorem allow_derived_inert_witness :
    resolve_channel exRun ⟨"signal", true⟩ (some cfgOK) (some "i") =
      resolve_channel exRun ⟨"signal", false⟩ (some cfgOK) (some "i") ∧
    resolve_channel exRun ⟨"signal", true⟩ (some cfgOK) (some "i") =
      .ok (Channel.from_parts "motion" "X") := by
  have h := allow_derived_inert exRun "signal" true false (some cfgOK)
    (some "i")
  exact ⟨h.1, h.2 cfgOK "i" [("signal", "motion:X")] "motion:X" "motion"
    "X" exGroup rfl rfl (by decide) rfl rfl rfl rfl rfl⟩

/-! ### Provenance-engine theorems (claims C2, C6) -/

/-- Claim C6: `create_averaged_channel` (a) with fewer than two sources
raises `InsufficientSources` (`ValueError("Need at least 2 channels to
average")`) before touching the run; (b) with resolvable sources whose
collected arrays differ in length raises `LengthMismatch`
(`ValueError("Channel lengths differ: ...")`) with the run unchanged —
nothing is written, truncated or padded; (c) with equal lengths it
writes the elementwise mean ignoring missing values (`np.nanmean`) into
`target_group[output_name]` and records the `"average"` provenance
entry.  (The arrays compared and averaged are the collected ones; with
`interpolate_missing=False` these are exactly the raw source columns,
and interpolation preserves length, so the length condition matches the
raw columns either way.) -/
theorem create_averaged_channel_guards (run : RunData)
    (sources : List (String × String)) (tgName out : String)
    (interp : Bool) :
    (sources.length < 2 →
      create_averaged_channel run sources tgName out interp =
        .error (.valueError "Need at least 2 channels to average", run)) ∧
    (∀ data_arrays parent_ids,
      2 ≤ sources.length →
      collectSources run sources interp = .ok (data_arrays, parent_ids) →
      1 < (data_arrays.map List.length).dedup.length →
      create_averaged_channel run sources tgName out interp =
        .error (.valueError ("Channel lengths differ: " ++
          toString (data_arrays.map List.length)), run)) ∧
    (∀ data_arrays parent_ids tg,
      2 ≤ sources.length →
      collectSources run sources interp = .ok (data_arrays, parent_ids) →
      ¬ 1 < (data_arrays.map List.length).dedup.length →
      run.signals.find? tgName = some tg →
      ∃ run',
        create_averaged_channel run sources tgName out interp =
          .ok (Channel.from_parts tgName out, run') ∧
        (∃ tg', run'.signals.find? tgName = some tg' ∧
          tg'.data.find? out = some (nanMean data_arrays)) ∧
        run'.channel_provenance.find? (tgName ++ ":" ++ out) =
          some ⟨parent_ids, "average",
            [("interpolate_missing", .bool interp)]⟩) := by
  refine ⟨?_, ?_, ?_⟩
  · intro h
    unfold create_averaged_channel
    rw [if_pos h]
  · intro data_arrays parent_ids h2 hcol hlen
    unfold create_averaged_channel
    rw [if_neg (by omega)]
    rw [hcol]
    simp only [if_pos hlen]
  · intro data_arrays parent_ids tg h2 hcol hlen htg
    unfold create_averaged_channel
    rw [if_neg (by omega)]
    rw [hcol]
    simp only [if_neg hlen, htg]
    refine ⟨_, rfl,
      ⟨{ tg with data := tg.data.set out (nanMean data_arrays) }, ?_, ?_⟩,
      ?_⟩
    · exact Dict.find?_set_self _ _ _
    · exact Dict.find?_set_self _ _ _
    · exact Dict.find?_set_self _ _ _




/-- Witness for C6: all three guard behaviours at concrete inputs —
too few sources, length mismatch (2 vs 3 samples, error carries the
untouched run), and the nan-ignoring mean `[2, 2]` of
`A = [1, 2]` and `B = [3, NaN]`. -/
theorem create_averaged_channel_guards_witness :
    create_averaged_channel exRunAB [("g", "A")] "g" "avg" false =
      .error (.valueError "Need at least 2 channels to average",
        exRunAB) ∧
    create_averaged_channel exRunAB [("g", "A"), ("g", "C3")] "g" "avg"
        false =
      .error (.valueError "Channel lengths differ: [2, 3]", exRunAB) ∧
    (∃ run',
      create_averaged_channel exRunAB [("g", "A"), ("g", "B")] "g" "avg"
          false =
        .ok (Channel.from_parts "g" "avg", run') ∧
      (∃ tg', run'.signals.find? "g" = some tg' ∧
        tg'.data.find? "avg" = some [some 2, some 2]) ∧
      run'.channel_provenance.find? "g:avg" =
        some ⟨["g:A", "g:B"], "average",
          [("interpolate_missing", .bool false)]⟩) := by
  refine ⟨?_, ?_, ?_⟩
  · exact (create_averaged_channel_guards exRunAB [("g", "A")] "g" "avg"
      false).1 (by decide)
  · have h := (create_averaged_channel_guards exRunAB
      [("g", "A"), ("g", "C3")] "g" "avg" false).2.1
      [[some 1, some 2], [some 0, some 0, some 0]] ["g:A", "g:C3"]
      (by decide) rfl (by decide)
    exact h
  · have h := (create_averaged_channel_guards exRunAB
      [("g", "A"), ("g", "B")] "g" "avg" false).2.2
      [[some 1, some 2], [some 3, none]] ["g:A", "g:B"] exGroupAB
      (by decide) rfl (by decide) rfl
    rcases h with ⟨run', hres, ⟨tg', htg, hdata⟩, hprov⟩
    refine ⟨run', hres, ⟨tg', htg, ?_⟩, hprov⟩
    rw [hdata]
    with_unfolding_all decide

def IsPath (prov : Dict ChannelProvenance) :
    String → List String → String → Prop
  | a, [], b => parentStep prov a b
  | a, m :: ms, b => parentStep prov a m ∧ IsPath prov m ms b

theorem reaches_of_path {prov : Dict ChannelProvenance} :
    ∀ {a b : String} {ms : List String}, IsPath prov a ms b →
      Reaches prov a b := by
  intro a b ms
  induction ms generalizing a with
  | nil => exact fun h => Relation.TransGen.single h
  | cons m rest ih =>
      rintro ⟨h1, h2⟩
      exact Relation.TransGen.head h1 (ih h2)

theorem path_snoc {prov : Dict ChannelProvenance} :
    ∀ {a b c : String} {ms : List String}, IsPath prov a ms b →
      parentStep prov b c → IsPath prov a (ms ++ [b]) c := by
  intro a b c ms
  induction ms generalizing a with
  | nil => exact fun h1 h2 => ⟨h1, h2⟩
  | cons m rest ih =>
      rintro ⟨h1, h2⟩ h3
      exact ⟨h1, ih h2 h3⟩

theorem path_of_reaches {prov : Dict ChannelProvenance} {a b : String}
    (h : Reaches prov a b) : ∃ ms, IsPath prov a ms b := by
  induction h with
  | single h => exact ⟨[], h⟩
  | tail _ hstep ih =>
      rcases ih with ⟨ms, hp⟩
      exact ⟨ms ++ [_], path_snoc hp hstep⟩

theorem path_join {prov : Dict ChannelProvenance} :
    ∀ {a b c : String} {l₁ l₂ : List String}, IsPath prov a l₁ b →
      IsPath prov b l₂ c → IsPath prov a (l₁ ++ b :: l₂) c := by
  intro a b c l₁
  induction l₁ generalizing a with
  | nil => exact fun h1 h2 => ⟨h1, h2⟩
  | cons m rest ih =>
      rintro l₂ ⟨h1, h2⟩ h3
      exact ⟨h1, ih h2 h3⟩

theorem path_split {prov : Dict ChannelProvenance} :
    ∀ {a b m : String} {l₁ l₂ : List String},
      IsPath prov a (l₁ ++ m :: l₂) b →
      IsPath prov a l₁ m ∧ IsPath prov m l₂ b := by
  intro a b m l₁
  induction l₁ generalizing a with
  | nil => exact fun h => ⟨h.1, h.2⟩
  | cons x rest ih =>
      rintro l₂ ⟨h1, h2⟩
      rcases ih h2 with ⟨ha, hb⟩
      exact ⟨⟨h1, ha⟩, hb⟩

theorem path_first_reach {prov : Dict ChannelProvenance} :
    ∀ {a b c : String} {ms : List String}, IsPath prov a ms b →
      c ∈ ms → ∃ ms₁, IsPath prov a ms₁ c ∧ c ∉ ms₁ := by
  intro a b c ms
  induction ms generalizing a with
  | nil => intro _ h; exact absurd h (List.not_mem_nil c)
  | cons m rest ih =>
      rintro ⟨h1, h2⟩ hc
      by_cases hm : m = c
      · subst hm
        exact ⟨[], h1, List.not_mem_nil m⟩
      · have hcr : c ∈ rest := by
          rcases List.mem_cons.mp hc with h | h
          · exact absurd h.symm hm
          · exact h
        rcases ih h2 hcr with ⟨ms₁, hp, hnc⟩
        refine ⟨m :: ms₁, ⟨h1, hp⟩, ?_⟩
        intro hmem
        rcases List.mem_cons.mp hmem with h | h
        · exact hm h.symm
        · exact hnc h

theorem parentStep_set_self {prov : Dict ChannelProvenance}
    {c b : String} {e : ChannelProvenance} :
    parentStep (prov.set c e) c b ↔ b ∈ e.parents := by
  constructor
  · rintro ⟨pr, hf, hb⟩
    rw [Dict.find?_set_self] at hf
    cases hf
    exact hb
  · intro hb
    exact ⟨e, Dict.find?_set_self prov c e, hb⟩

theorem parentStep_set_ne {prov : Dict ChannelProvenance}
    {a c b : String} {e : ChannelProvenance} (ha : a ≠ c) :
    parentStep (prov.set c e) a b ↔ parentStep prov a b := by
  unfold parentStep
  rw [Dict.find?_set_ne prov c a e ha]

theorem path_avoid {prov : Dict ChannelProvenance} {c : String}
    {e : ChannelProvenance} :
    ∀ {a b : String} {ms : List String},
      IsPath (prov.set c e) a ms b → a ≠ c → c ∉ ms →
      IsPath prov a ms b := by
  intro a b ms
  induction ms generalizing a with
  | nil =>
      intro h ha _
      exact (parentStep_set_ne ha).mp h
  | cons m rest ih =>
      rintro ⟨h1, h2⟩ ha hnc
      have hm : m ≠ c := fun h => hnc (h ▸ List.mem_cons_self m rest)
      have hcr : c ∉ rest := fun h => hnc (List.mem_cons_of_mem m h)
      exact ⟨(parentStep_set_ne ha).mp h1, ih h2 hm hcr⟩

/-- Overwriting (or adding) one provenance entry keeps the graph acyclic
provided none of the entry's parents equals, or already reaches, the
entry's own id. -/
theorem acyclic_set {prov : Dict ChannelProvenance} {c : String}
    {e : ChannelProvenance} (hac : Acyclic prov)
    (hp : ∀ p ∈ e.parents, p ≠ c ∧ ¬ Reaches prov p c) :
    Acyclic (prov.set c e) := by
  intro z hz
  rcases path_of_reaches hz with ⟨ms, hpath⟩
  by_cases hcmem : z = c ∨ c ∈ ms
  · have hcyc : ∃ ms', IsPath (prov.set c e) c ms' c := by
      rcases hcmem with h | h
      · exact ⟨ms, h ▸ hpath⟩
      · rcases List.append_of_mem h with ⟨l₁, l₂, hms⟩
        subst hms
        rcases path_split hpath with ⟨hp1, hp2⟩
        exact ⟨l₂ ++ z :: l₁, path_join hp2 hp1⟩
    rcases hcyc with ⟨ms', hcyc⟩
    cases ms' with
    | nil =>
        have : c ∈ e.parents := parentStep_set_self.mp hcyc
        exact (hp c this).1 rfl
    | cons y rest =>
        rcases hcyc with ⟨hstep, hrest⟩
        have hy : y ∈ e.parents := parentStep_set_self.mp hstep
        have hyc : y ≠ c := (hp y hy).1
        by_cases hcr : c ∈ rest
        · rcases path_first_reach hrest hcr with ⟨ms₁, hp1, hnc⟩
          exact (hp y hy).2 (reaches_of_path (path_avoid hp1 hyc hnc))
        · exact (hp y hy).2 (reaches_of_path (path_avoid hrest hyc hcr))
  · push_neg at hcmem
    exact hac z (reaches_of_path (path_avoid hpath hcmem.1 hcmem.2))

theorem create_derived_channel_ok_shape {ctx : Ctx} {run : RunData}
    {g src op : String} {params : Params} {suff : Option String}
    {ch : Channel} {run' : RunData}
    (h : create_derived_channel ctx run g src op params suff =
      .ok (ch, run')) :
    ch.group = g ∧
    run'.channel_provenance =
      run.channel_provenance.set ch.id ⟨[g ++ ":" ++ src], op, params⟩ := by
  unfold create_derived_channel at h
  split at h
  · exact absurd h (by simp)
  split at h
  · exact absurd h (by simp)
  split at h
  · exact absurd h (by simp)
  simp only [Except.ok.injEq, Prod.mk.injEq] at h
  rcases h with ⟨hch, hrun⟩
  subst hch
  subst hrun
  exact ⟨rfl, rfl⟩

theorem collectSources_parent_ids {run : RunData} :
    ∀ {srcs : List (String × String)} {interp : Bool}
      {arrays : List Col} {pids : List String},
      collectSources run srcs interp = .ok (arrays, pids) →
      pids = srcs.map (fun gc => gc.1 ++ ":" ++ gc.2) := by
  intro srcs
  induction srcs with
  | nil =>
      intro interp arrays pids h
      simp only [collectSources, Except.ok.injEq, Prod.mk.injEq] at h
      simp [h.2.symm]
  | cons gc rest ih =>
      intro interp arrays pids h
      rcases gc with ⟨g, c⟩
      unfold collectSources at h
      split at h
      · exact absurd h (by simp)
      split at h
      · exact absurd h (by simp)
      split at h
      · exact absurd h (by simp)
      next ds ps hrec =>
        simp only [Except.ok.injEq, Prod.mk.injEq] at h
        simp [h.2.symm, ih hrec]

theorem create_averaged_channel_ok_shape {run : RunData}
    {sources : List (String × String)} {tgName out : String}
    {interp : Bool} {ch : Channel} {run' : RunData}
    (h : create_averaged_channel run sources tgName out interp =
      .ok (ch, run')) :
    ch = Channel.from_parts tgName out ∧
    run'.channel_provenance =
      run.channel_provenance.set ch.id
        ⟨sources.map (fun gc => gc.1 ++ ":" ++ gc.2), "average",
          [("interpolate_missing", .bool interp)]⟩ := by
  unfold create_averaged_channel at h
  split at h
  · exact absurd h (by simp)
  split at h
  · exact absurd h (by simp)
  next arrays pids hcol =>
    split at h
    · exact absurd h (by simp)
    split at h
    · exact absurd h (by simp)
    simp only [Except.ok.injEq, Prod.mk.injEq] at h
    rcases h with ⟨hch, hrun⟩
    subst hch
    subst hrun
    exact ⟨rfl, by rw [collectSources_parent_ids hcol]⟩

/-- Claim C2 (amended): a successful `create_derived_channel` or
`create_averaged_channel` call on a run with acyclic provenance keeps
the provenance acyclic *provided* none of the recorded parents of the
new entry equals or already reaches the created channel's id.  Without
that side condition a call can introduce a cycle — in particular
`create_averaged_channel` with `output_name` naming one of its own
sources records the new channel as its own parent
(`create_averaged_cycle_counterexample`): neither function checks. -/
theorem derived_channel_creation_acyclicity :
    (∀ (ctx : Ctx) (run : RunData) (g src op : String) (params : Params)
       (suff : Option String) (ch : Channel) (run' : RunData),
       Acyclic run.channel_provenance →
       create_derived_channel ctx run g src op params suff =
         .ok (ch, run') →
       g ++ ":" ++ src ≠ ch.id →
       ¬ Reaches run.channel_provenance (g ++ ":" ++ src) ch.id →
       Acyclic run'.channel_provenance) ∧
    (∀ (run : RunData) (sources : List (String × String))
       (tgName out : String) (interp : Bool) (ch : Channel)
       (run' : RunData),
       Acyclic run.channel_provenance →
       create_averaged_channel run sources tgName out interp =
         .ok (ch, run') →
       (∀ gc ∈ sources, gc.1 ++ ":" ++ gc.2 ≠ ch.id ∧
         ¬ Reaches run.channel_provenance (gc.1 ++ ":" ++ gc.2) ch.id) →
       Acyclic run'.channel_provenance) := by
  constructor
  · intro ctx run g src op params suff ch run' hac h hne hnr
    rcases create_derived_channel_ok_shape h with ⟨_, hprov⟩
    rw [hprov]
    apply acyclic_set hac
    intro p hp
    rcases List.mem_singleton.mp hp with rfl
    exact ⟨hne, hnr⟩
  · intro run sources tgName out interp ch run' hac h hsrc
    rcases create_averaged_channel_ok_shape h with ⟨_, hprov⟩
    rw [hprov]
    apply acyclic_set hac
    intro p hp
    rcases List.mem_map.mp hp with ⟨gc, hgc, rfl⟩
    exact hsrc gc hgc

theorem not_reaches_nil (a b : String) :
    ¬ Reaches ([] : Dict ChannelProvenance) a b := by
  intro h
  cases h with
  | single hs =>
      rcases hs with ⟨pr, hf, _⟩
      exact absurd hf (by simp [Dict.find?])
  | tail _ hs =>
      rcases hs with ⟨pr, hf, _⟩
      exact absurd hf (by simp [Dict.find?])

/-- Counterexample to claim C2 as stated: starting from an (empty,
hence acyclic) provenance map, a single `create_averaged_channel` call
averaging `g:A` and `g:B` into output name `A` of group `g` records the
channel id `g:A` with itself among its parents — the created channel
reaches itself, a cycle. -/
theorem create_averaged_cycle_counterexample :
    Acyclic exRunAB.channel_provenance ∧
    (∃ run',
      create_averaged_channel exRunAB [("g", "A"), ("g", "B")] "g" "A"
        false = .ok (Channel.from_parts "g" "A", run') ∧
      Reaches run'.channel_provenance "g:A" "g:A") := by
  constructor
  · exact fun c => not_reaches_nil c c
  · refine ⟨_, rfl, ?_⟩
    exact Relation.TransGen.single
      ⟨⟨["g:A", "g:B"], "average",
        [("interpolate_missing", .bool false)]⟩, rfl, by simp⟩

/-- Witness for C2 (amended): deriving `motion:X_bf10` from `motion:X`
on a fresh run satisfies the side condition, and the resulting
provenance is acyclic. -/
theorem derived_channel_creation_acyclicity_witness :
    ∃ ch run',
      create_derived_channel exCtx exRun "motion" "X" "butter"
        [("cutoff", .int 10)] none = .ok (ch, run') ∧
      Acyclic run'.channel_provenance := by
  refine ⟨_, _, rfl, ?_⟩
  exact (derived_channel_creation_acyclicity).1 exCtx exRun "motion" "X"
    "butter" [("cutoff", .int 10)] none _ _
    (fun c => not_reaches_nil c c) rfl (by decide)
    (not_reaches_nil "motion:X" _)

/-! ### Pipeline-runner counting theorems (claim C10) -/

/-- Claim C10 (amended): `PipelineResult.success_rate` is total — it
returns `0` when `total_runs = 0` instead of dividing; a batch whose
glob filter matches no runs reports `total_runs = 0` and success rate
`0`; and every `PipelineResult` built by a *non-dry* `run` satisfies
`successful_runs + failed_runs = |run_results|`.  The dry-run branch
violates the counting identity (`success_rate_counting_counterexample`),
which forces the `dry_run = false` restriction. -/
theorem success_rate_total_and_counts :
    (∀ r : PipelineResult, r.total_runs = 0 → r.success_rate = 0) ∧
    (∀ (rctx : RunnerCtx) (pipe : PipelineConfig) (runs : List RunData)
       (pat : String) (stop : Bool),
       (∀ r ∈ runs, fnmatch r.run pat = false) →
       (pipeline_run rctx pipe runs pat false stop).total_runs = 0 ∧
       (pipeline_run rctx pipe runs pat false stop).success_rate = 0) ∧
    (∀ (rctx : RunnerCtx) (pipe : PipelineConfig) (runs : List RunData)
       (pat : String) (stop : Bool),
       (pipeline_run rctx pipe runs pat false stop).successful_runs +
         (pipeline_run rctx pipe runs pat false stop).failed_runs =
       (pipeline_run rctx pipe runs pat false stop).run_results.length) := by
  have hrate : ∀ r : PipelineResult, r.total_runs = 0 → r.success_rate = 0 := by
    intro r h
    unfold PipelineResult.success_rate
    rw [if_pos h]
  refine ⟨hrate, ?_, ?_⟩
  · intro rctx pipe runs pat stop hno
    have hfil : runs.filter (fun r => fnmatch r.run pat) = [] := by
      rw [List.filter_eq_nil_iff]
      intro a ha
      simp [hno a ha]
    have htot : (pipeline_run rctx pipe runs pat false stop).total_runs = 0 := by
      unfold pipeline_run
      rw [hfil]
      rfl
    exact ⟨htot, hrate _ htot⟩
  · intro rctx pipe runs pat stop
    unfold pipeline_run
    simp only [Bool.false_eq_true, if_false]
    have hle := List.countP_le_length
      (p := fun r : RunResult => r.success)
      (l := runBatch rctx pipe (runs.filter (fun r => fnmatch r.run pat)) stop)
    omega

/-- Counterexample to claim C10 as stated: `run` with `dry_run=True`
over one matching run returns `successful_runs = 1`, `failed_runs = 0`
but an empty `run_results` list, so
`successful_runs + failed_runs ≠ |run_results|` for this
`PipelineResult` built by `run`. -/
theorem success_rate_counting_counterexample :
    (pipeline_run rctx0 pipe0 [exRun] "*" true false).successful_runs = 1 ∧
    (pipeline_run rctx0 pipe0 [exRun] "*" true false).failed_runs = 0 ∧
    (pipeline_run rctx0 pipe0 [exRun] "*" true false).run_results = [] ∧
    (pipeline_run rctx0 pipe0 [exRun] "*" true false).successful_runs +
        (pipeline_run rctx0 pipe0 [exRun] "*" true false).failed_runs ≠
      (pipeline_run rctx0 pipe0 [exRun] "*" true false).run_results.length := by
  refine ⟨rfl, rfl, rfl, ?_⟩
  decide

/-- Witness for C10: a batch whose filter matches nothing reports rate
`0`, and a real (non-dry) one-run batch satisfies the counting
identity. -/
theorem success_rate_total_and_counts_witness :
    (pipeline_run rctx0 pipe0 [exRun] "zzz" false false).total_runs = 0 ∧
    (pipeline_run rctx0 pipe0 [exRun] "zzz" false false).success_rate = 0 ∧
    (pipeline_run rctx0 pipe0 [exRun] "*" false false).successful_runs +
        (pipeline_run rctx0 pipe0 [exRun] "*" false false).failed_runs =
      (pipeline_run rctx0 pipe0 [exRun] "*" false false).run_results.length := by
  have h2 := (success_rate_total_and_counts).2.1 rctx0 pipe0 [exRun] "zzz"
    false (by intro r hr; rcases List.mem_singleton.mp hr with rfl; rfl)
  exact ⟨h2.1, h2.2,
    (success_rate_total_and_counts).2.2 rctx0 pipe0 [exRun] "*" false⟩

/-! ### Binding-leak theorems (claim C9) -/

theorem Dict.find?_updateAll_of_none {α : Type} :
    ∀ (other d : Dict α) (k : String), other.find? k = none →
      (d.updateAll other).find? k = d.find? k := by
  intro other
  induction other with
  | nil => intro d k _; rfl
  | cons kv rest ih =>
      intro d k h
      unfold Dict.find? at h
      split at h
      · exact absurd h (by simp)
      next hne =>
        have step : (d.updateAll (kv :: rest)) =
            ((d.set kv.1 kv.2).updateAll rest) := rfl
        rw [step, ih _ k h,
          Dict.find?_set_ne d kv.1 k kv.2 (fun hk => hne hk.symm)]

theorem create_derived_channel_state_run_config (ctx : Ctx)
    (run : RunData) (g src op : String) (params : Params)
    (suff : Option String) :
    (exceptState (create_derived_channel ctx run g src op params
      suff)).run_config = run.run_config := by
  unfold create_derived_channel
  split
  · rfl
  · split
    · rfl
    · split
      · rfl
      · rfl

theorem applyOps_state_run_config (ctx : Ctx) (g : String) :
    ∀ (ops : List Params) (run : RunData) (cur : String),
      (exceptState (applyOps ctx g run cur ops)).run_config =
        run.run_config := by
  intro ops
  induction ops with
  | nil => intro run cur; rfl
  | cons op rest ih =>
      intro run cur
      unfold applyOps
      cases hc : create_derived_channel ctx run g cur (opNameOf op)
          (opParamsOf op) with
      | error e =>
          have := create_derived_channel_state_run_config ctx run g cur
            (opNameOf op) (opParamsOf op) none
          rw [hc] at this
          exact this
      | ok p =>
          rcases p with ⟨ch, run'⟩
          have := create_derived_channel_state_run_config ctx run g cur
            (opNameOf op) (opParamsOf op) none
          rw [hc] at this
          rw [(rfl :
            (match (Except.ok (ch, run') :
                Except (PyErr × RunData) (Channel × RunData)) with
              | .error e => Except.error e
              | .ok (ch, run') => applyOps ctx g run' ch.name rest) =
            applyOps ctx g run' ch.name rest)]
          rw [ih run' ch.name]
          exact this

theorem runPreprocessingStep_run_config (rctx : RunnerCtx)
    (run : RunData) (step : PreprocessingStep) :
    ((runPreprocessingStep rctx run step).2).run_config =
      run.run_config := by
  unfold runPreprocessingStep
  split
  · next g n _ =>
      cases ho : applyOps rctx.ctx g run n step.operations with
      | error e =>
          have := applyOps_state_run_config rctx.ctx g step.operations
            run n
          rw [ho] at this
          exact this
      | ok p =>
          rcases p with ⟨cur, run'⟩
          have := applyOps_state_run_config rctx.ctx g step.operations
            run n
          rw [ho] at this
          exact this
  · rfl

theorem runPre_run_config (rctx : RunnerCtx) :
    ∀ (steps : List PreprocessingStep) (run : RunData)
      (acc : List PipelineStepResult),
      ((runPre rctx steps run acc).2.1).run_config = run.run_config := by
  intro steps
  induction steps with
  | nil => intro run acc; rfl
  | cons step rest ih =>
      intro run acc
      unfold runPre
      split
      next res run' heq =>
        have h0 := runPreprocessingStep_run_config rctx run step
        rw [heq] at h0
        split
        · rw [ih]
          exact h0
        · exact h0

theorem getD_channel_bindings (run : RunData) :
    (run.run_config.getD {}).channel_bindings = bindingsOf run := by
  unfold bindingsOf
  cases h : run.run_config with
  | none => rfl
  | some c => rfl

theorem applyStepBindings_persist {run : RunData}
    {bs? : Option (Dict (Dict String))} {inst : String}
    {v : Dict String}
    (h : (bindingsOf run).find? inst = some v)
    (hb : ∀ bs, bs? = some bs → bs.find? inst = none) :
    (bindingsOf (applyStepBindings run bs?)).find? inst = some v := by
  cases bs? with
  | none => exact h
  | some bs =>
      have hred : applyStepBindings run (some bs) =
          if bs.isEmpty then run
          else { run with run_config := some ({ run.run_config.getD {} with
              channel_bindings :=
                (run.run_config.getD {}).channel_bindings.updateAll
                  bs }) } := rfl
      rw [hred]
      by_cases hemp : bs.isEmpty
      · rw [if_pos hemp]; exact h
      · rw [if_neg hemp]
        show ((run.run_config.getD
            {}).channel_bindings.updateAll bs).find? inst = some v
        rw [Dict.find?_updateAll_of_none bs _ inst (hb bs rfl),
          getD_channel_bindings]
        exact h

theorem runAnnotatorStep_persist {rctx : RunnerCtx} {run : RunData}
    {step : AnnotatorStep} {inst : String} {v : Dict String}
    (h : (bindingsOf run).find? inst = some v)
    (hb : ∀ bs, step.channel_bindings = some bs →
      bs.find? inst = none) :
    (bindingsOf (runAnnotatorStep rctx run step).2).find? inst =
      some v := by
  unfold runAnnotatorStep
  split
  · exact h
  · split
    · exact applyStepBindings_persist h hb
    · exact applyStepBindings_persist h hb

theorem runComputeStep_persist {rctx : RunnerCtx} {run : RunData}
    {step : ComputeStep} {inst : String} {v : Dict String}
    (h : (bindingsOf run).find? inst = some v)
    (hb : ∀ bs, step.channel_bindings = some bs →
      bs.find? inst = none) :
    (bindingsOf (runComputeStep rctx run step).2).find? inst =
      some v := by
  unfold runComputeStep
  split
  · exact h
  · split
    · exact applyStepBindings_persist h hb
    · exact applyStepBindings_persist h hb
    · exact applyStepBindings_persist h hb

theorem runAnnots_persist {rctx : RunnerCtx} {inst : String}
    {v : Dict String} :
    ∀ (steps : List AnnotatorStep) (run : RunData)
      (acc : List PipelineStepResult),
      (bindingsOf run).find? inst = some v →
      (∀ step ∈ steps, ∀ bs, step.channel_bindings = some bs →
        bs.find? inst = none) →
      (bindingsOf (runAnnots rctx steps run acc).2.1).find? inst =
        some v := by
  intro steps
  induction steps with
  | nil => intro run acc h _; exact h
  | cons step rest ih =>
      intro run acc h hb
      have hstep : ∀ bs, step.channel_bindings = some bs →
          bs.find? inst = none :=
        fun bs hbs => hb step (List.mem_cons_self step rest) bs hbs
      have hrest : ∀ s ∈ rest, ∀ bs, s.channel_bindings = some bs →
          bs.find? inst = none :=
        fun s hs bs hbs => hb s (List.mem_cons_of_mem step hs) bs hbs
      unfold runAnnots
      split
      · split
        next res run' heq =>
          have h1 := @runAnnotatorStep_persist rctx _ step _ _ h hstep
          rw [heq] at h1
          split
          · exact ih run' _ h1 hrest
          · exact h1
      · exact ih run acc h hrest

theorem runComputes_persist {rctx : RunnerCtx} {inst : String}
    {v : Dict String} :
    ∀ (steps : List ComputeStep) (run : RunData)
      (acc : List PipelineStepResult),
      (bindingsOf run).find? inst = some v →
      (∀ step ∈ steps, ∀ bs, step.channel_bindings = some bs →
        bs.find? inst = none) →
      (bindingsOf (runComputes rctx steps run acc).2.1).find? inst =
        some v := by
  intro steps
  induction steps with
  | nil => intro run acc h _; exact h
  | cons step rest ih =>
      intro run acc h hb
      have hstep : ∀ bs, step.channel_bindings = some bs →
          bs.find? inst = none :=
        fun bs hbs => hb step (List.mem_cons_self step rest) bs hbs
      have hrest : ∀ s ∈ rest, ∀ bs, s.channel_bindings = some bs →
          bs.find? inst = none :=
        fun s hs bs hbs => hb s (List.mem_cons_of_mem step hs) bs hbs
      unfold runComputes
      split
      · split
        · split
          next res run' heq =>
            have h1 := @runComputeStep_persist rctx _ step _ _ h hstep
            rw [heq] at h1
            split
            · exact ih run' _ h1 hrest
            · exact h1
        · exact ih run _ h hrest
      · exact ih run acc h hrest

theorem bindingsOf_eq_of_run_config {r1 r2 : RunData}
    (h : r1.run_config = r2.run_config) : bindingsOf r1 = bindingsOf r2 := by
  unfold bindingsOf
  rw [h]

theorem run_single_persist {rctx : RunnerCtx} {pipe : PipelineConfig}
    {run : RunData} {inst : String} {v : Dict String}
    (h : (bindingsOf run).find? inst = some v)
    (hannot : ∀ step ∈ pipe.annotators, ∀ bs,
      step.channel_bindings = some bs → bs.find? inst = none)
    (hcomp : ∀ step ∈ pipe.compute, ∀ bs,
      step.channel_bindings = some bs → bs.find? inst = none) :
    (bindingsOf (run_single rctx pipe run).2).find? inst = some v := by
  unfold run_single
  split
  next acc rd e heqPre =>
    have hpre := runPre_run_config rctx pipe.preprocessing run []
    rw [heqPre] at hpre
    rw [bindingsOf_eq_of_run_config hpre]
    exact h
  next acc rd heqPre =>
    have hpre := runPre_run_config rctx pipe.preprocessing run []
    rw [heqPre] at hpre
    have h1 : (bindingsOf rd).find? inst = some v := by
      rw [bindingsOf_eq_of_run_config hpre]; exact h
    split
    next acc2 rd2 e heqA =>
      have h2 := @runAnnots_persist rctx _ _ pipe.annotators rd acc
        h1 hannot
      rw [heqA] at h2
      exact h2
    next acc2 rd2 heqA =>
      have h2 := @runAnnots_persist rctx _ _ pipe.annotators rd acc
        h1 hannot
      rw [heqA] at h2
      split
      next acc3 rd3 e heqC =>
        have h3 := @runComputes_persist rctx _ _ pipe.compute rd2
          acc2 h2 hcomp
        rw [heqC] at h3
        exact h3
      next acc3 rd3 heqC =>
        have h3 := @runComputes_persist rctx _ _ pipe.compute rd2
          acc2 h2 hcomp
        rw [heqC] at h3
        exact h3

theorem runAnnotatorStep_merges (rctx : RunnerCtx) (run : RunData)
    (step : AnnotatorStep) (f : RunData → Except String (List Event))
    (bs : Dict (Dict String))
    (hf : rctx.getAnnotator step.name = some f)
    (hbs : step.channel_bindings = some bs)
    (hne : bs.isEmpty = false) :
    ∃ cfg, ((runAnnotatorStep rctx run step).2).run_config = some cfg ∧
      cfg.channel_bindings = (bindingsOf run).updateAll bs := by
  have hmerge : (applyStepBindings run step.channel_bindings).run_config =
      some ({ run.run_config.getD {} with
        channel_bindings :=
          (run.run_config.getD {}).channel_bindings.updateAll bs }) := by
    rw [hbs]
    have hred : applyStepBindings run (some bs) =
        if bs.isEmpty then run
        else { run with run_config := some ({ run.run_config.getD {} with
            channel_bindings :=
              (run.run_config.getD {}).channel_bindings.updateAll
                bs }) } := rfl
    rw [hred, if_neg (by simp [hne])]
  unfold runAnnotatorStep
  simp only [hf]
  refine ⟨{ run.run_config.getD {} with
    channel_bindings :=
      (run.run_config.getD {}).channel_bindings.updateAll bs }, ?_,
    by rw [getD_channel_bindings]⟩
  split
  · exact hmerge
  · exact hmerge

theorem runComputeStep_merges (rctx : RunnerCtx) (run : RunData)
    (step : ComputeStep) (f : RunData → Except String (Option ℕ))
    (bs : Dict (Dict String))
    (hf : rctx.getCompute step.name = some f)
    (hbs : step.channel_bindings = some bs)
    (hne : bs.isEmpty = false) :
    ∃ cfg, ((runComputeStep rctx run step).2).run_config = some cfg ∧
      cfg.channel_bindings = (bindingsOf run).updateAll bs := by
  have hmerge : (applyStepBindings run step.channel_bindings).run_config =
      some ({ run.run_config.getD {} with
        channel_bindings :=
          (run.run_config.getD {}).channel_bindings.updateAll bs }) := by
    rw [hbs]
    have hred : applyStepBindings run (some bs) =
        if bs.isEmpty then run
        else { run with run_config := some ({ run.run_config.getD {} with
            channel_bindings :=
              (run.run_config.getD {}).channel_bindings.updateAll
                bs }) } := rfl
    rw [hred, if_neg (by simp [hne])]
  unfold runComputeStep
  simp only [hf]
  refine ⟨{ run.run_config.getD {} with
    channel_bindings :=
      (run.run_config.getD {}).channel_bindings.updateAll bs }, ?_,
    by rw [getD_channel_bindings]⟩
  split
  · exact hmerge
  · exact hmerge
  · exact hmerge

/-- Claim C9: step-scoped `channel_bindings` leak into the run's
persistent config.  When an `AnnotatorStep` or `ComputeStep` carries
(non-empty) `channel_bindings` and its plugin is registered,
`_run_annotator`/`_run_compute` merge them into
`run.run_config.channel_bindings` in place, creating a `RunConfig` when
the run had none (the merged config is `some` even then), regardless of
whether the plugin then succeeds or raises; and nothing in `run_single`
ever restores prior bindings — any instance key not re-bound by a later
step survives every phase and is still present after `run_single`
returns. -/
theorem step_bindings_leak :
    (∀ (rctx : RunnerCtx) (run : RunData) (step : AnnotatorStep)
       (f : RunData → Except String (List Event))
       (bs : Dict (Dict String)),
       rctx.getAnnotator step.name = some f →
       step.channel_bindings = some bs → bs.isEmpty = false →
       ∃ cfg, ((runAnnotatorStep rctx run step).2).run_config =
           some cfg ∧
         cfg.channel_bindings = (bindingsOf run).updateAll bs) ∧
    (∀ (rctx : RunnerCtx) (run : RunData) (step : ComputeStep)
       (f : RunData → Except String (Option ℕ))
       (bs : Dict (Dict String)),
       rctx.getCompute step.name = some f →
       step.channel_bindings = some bs → bs.isEmpty = false →
       ∃ cfg, ((runComputeStep rctx run step).2).run_config =
           some cfg ∧
         cfg.channel_bindings = (bindingsOf run).updateAll bs) ∧
    (∀ (rctx : RunnerCtx) (pipe : PipelineConfig) (run : RunData)
       (inst : String) (v : Dict String),
       (bindingsOf run).find? inst = some v →
       (∀ step ∈ pipe.annotators, ∀ bs,
         step.channel_bindings = some bs → bs.find? inst = none) →
       (∀ step ∈ pipe.compute, ∀ bs,
         step.channel_bindings = some bs → bs.find? inst = none) →
       (bindingsOf (run_single rctx pipe run).2).find? inst =
         some v) :=
  ⟨fun rctx run step f bs hf hbs hne =>
      runAnnotatorStep_merges rctx run step f bs hf hbs hne,
   fun rctx run step f bs hf hbs hne =>
      runComputeStep_merges rctx run step f bs hf hbs hne,
   fun _ _ _ _ _ h hannot hcomp => run_single_persist h hannot hcomp⟩

/-- Witness for C9: a binding-carrying annotator step on a run with *no*
config leaves `run_config = some` holding exactly the step's bindings;
and a pre-existing binding for another instance survives a full
`run_single`. -/
theorem step_bindings_leak_witness :
    (∃ cfg, ((runAnnotatorStep rctxA exRun stepA).2).run_config =
        some cfg ∧
      cfg.channel_bindings = [("inst", [("role", "g:A")])]) ∧
    (bindingsOf (run_single rctxA pipeA runWithCfg).2).find? "other" =
      some [("r", "x")] := by
  constructor
  · rcases (step_bindings_leak).1 rctxA exRun stepA annOK
      [("inst", [("role", "g:A")])] rfl rfl rfl with ⟨cfg, h1, h2⟩
    exact ⟨cfg, h1, by rw [h2]; rfl⟩
  · refine (step_bindings_leak).2.2 rctxA pipeA runWithCfg "other"
      [("r", "x")] rfl ?_ ?_
    · intro st hst bs hbs
      rcases List.mem_singleton.mp hst with rfl
      cases hbs
      rfl
    · intro st hst
      exact absurd hst (List.not_mem_nil st)

/-! ### Failure-isolation theorems (claim C3) -/

theorem globMatch_star (s : List Char) : globMatch ['*'] s = true := by
  simp only [globMatch]
  rw [List.any_eq_true]
  refine ⟨[], ?_, rfl⟩
  induction s with
  | nil => simp [List.tails]
  | cons c cs ih => simp [List.tails, ih]

theorem fnmatch_star (s : String) : fnmatch s "*" = true :=
  globMatch_star s.toList

theorem runBatch_no_stop (rctx : RunnerCtx) (pipe : PipelineConfig) :
    ∀ runs : List RunData, runBatch rctx pipe runs false =
      runs.map (fun r => (run_single rctx pipe r).1) := by
  intro runs
  induction runs with
  | nil => rfl
  | cons r rest ih =>
      unfold runBatch
      rw [if_neg (by simp)]
      rw [ih]
      rfl

theorem countP_all_but_one {α : Type} (g : α → Bool) :
    ∀ (l : List α) (k : ℕ) (hk : k < l.length), g l[k] = false →
      (∀ j (hj : j < l.length), j ≠ k → g l[j] = true) →
      l.countP g = l.length - 1 := by
  intro l
  induction l with
  | nil => intro k hk; exact absurd hk (by simp)
  | cons a rest ih =>
      intro k hk hfk hothers
      cases k with
      | zero =>
          have ha : g a = false := hfk
          have hrest : rest.countP g = rest.length := by
            rw [List.countP_eq_length]
            intro x hx
            rcases List.getElem_of_mem hx with ⟨j, hj, rfl⟩
            exact hothers (j + 1) (by simpa using hj) (by omega)
          rw [List.countP_cons, hrest, ha]
          simp
      | succ k' =>
          have ha : g a = true := hothers 0 (by simp) (by omega)
          have hk' : k' < rest.length := by simpa using hk
          have hfk' : g rest[k'] = false := by
            simpa using hfk
          have hoth' : ∀ j (hj : j < rest.length), j ≠ k' →
              g rest[j] = true := by
            intro j hj hne
            have := hothers (j + 1) (by simpa using hj) (by omega)
            simpa using this
          rw [List.countP_cons, ih k' hk' hfk' hoth', ha]
          simp
          omega

theorem runAnnots_append (rctx : RunnerCtx) :
    ∀ (xs ys : List AnnotatorStep) (rd : RunData)
      (acc accF : List PipelineStepResult) (rdF : RunData),
      runAnnots rctx xs rd acc = (accF, rdF, none) →
      runAnnots rctx (xs ++ ys) rd acc = runAnnots rctx ys rdF accF := by
  intro xs
  induction xs with
  | nil =>
      intro ys rd acc accF rdF h
      simp only [runAnnots, Prod.mk.injEq] at h
      rw [List.nil_append, h.1, h.2.1]
  | cons step rest ih =>
      intro ys rd acc accF rdF h
      rw [List.cons_append]
      simp only [runAnnots] at h ⊢
      split at h
      next hen =>
        split at h
        next hsucc =>
          rw [if_pos hen, if_pos hsucc]
          exact ih ys _ _ accF rdF h
        next hsucc =>
          exact absurd (congrArg (fun t => t.2.2) h) (by simp)
      next hen =>
        rw [if_neg hen]
        exact ih ys rd acc accF rdF h

theorem run_single_fail_at (rctx : RunnerCtx) (pipe : PipelineConfig)
    (run : RunData) (front : List AnnotatorStep) (sf : AnnotatorStep)
    (back : List AnnotatorStep)
    (preRes accF : List PipelineStepResult) (rdPre rdF : RunData)
    (resF : PipelineStepResult) (rdF' : RunData)
    (hsplit : pipe.annotators = front ++ sf :: back)
    (hen : sf.enabled = true)
    (hpre : runPre rctx pipe.preprocessing run [] = (preRes, rdPre, none))
    (hfront : runAnnots rctx front rdPre preRes = (accF, rdF, none))
    (hfail : runAnnotatorStep rctx rdF sf = (resF, rdF'))
    (hfs : resF.success = false) :
    (run_single rctx pipe run).1 =
      ⟨run.subject ++ "_" ++ run.session ++ "_" ++ run.run, run.subject,
        run.session, run.run, false, accF ++ [resF],
        some ("Annotator failed: " ++ resF.message)⟩ := by
  have hann : runAnnots rctx pipe.annotators rdPre preRes =
      (accF ++ [resF], rdF',
        some ("Annotator failed: " ++ resF.message)) := by
    rw [hsplit, runAnnots_append rctx front (sf :: back) rdPre preRes
      accF rdF hfront]
    simp only [runAnnots]
    rw [if_pos hen]
    simp only [hfail]
    rw [if_neg (by simp [hfs])]
  unfold run_single
  simp only [hpre, hann]

/-- Claim C3: per-run failure isolation.  In a batch run with
`stop_on_error = false` (filter `"*"`), if exactly one step raises — the
enabled annotator step `sf` of run `k`, after all of run `k`'s
preprocessing and earlier enabled annotator steps succeeded, and every
other run succeeds — then the report counts `failed_runs = 1` and
`successful_runs = N - 1`; run `k`'s `RunResult` has `success = false`,
its `error` text is the `RuntimeError` message wrapping the caught
exception message (`"Annotator failed: " ++ msg`, so the exception
message is carried in the error text), its `step_results` retain every
result recorded before the fault plus the faulting step's failed result
and nothing after; and every other run's entry in `run_results` is
exactly `run_single` of that run, unaffected by the fault. -/
theorem runner_per_run_failure_isolation (rctx : RunnerCtx)
    (pipe : PipelineConfig) (runs : List RunData) (k : ℕ)
    (hk : k < runs.length) (front : List AnnotatorStep)
    (sf : AnnotatorStep) (back : List AnnotatorStep)
    (preRes accF : List PipelineStepResult) (rdPre rdF : RunData)
    (resF : PipelineStepResult) (rdF' : RunData)
    (hsplit : pipe.annotators = front ++ sf :: back)
    (hen : sf.enabled = true)
    (hpre : runPre rctx pipe.preprocessing runs[k] [] =
      (preRes, rdPre, none))
    (hfront : runAnnots rctx front rdPre preRes = (accF, rdF, none))
    (hfail : runAnnotatorStep rctx rdF sf = (resF, rdF'))
    (hfs : resF.success = false)
    (hothers : ∀ j (hj : j < runs.length), j ≠ k →
      (run_single rctx pipe runs[j]).1.success = true) :
    (pipeline_run rctx pipe runs "*" false false).total_runs =
      runs.length ∧
    (pipeline_run rctx pipe runs "*" false false).run_results =
      runs.map (fun r => (run_single rctx pipe r).1) ∧
    (pipeline_run rctx pipe runs "*" false false).failed_runs = 1 ∧
    (pipeline_run rctx pipe runs "*" false false).successful_runs =
      runs.length - 1 ∧
    (run_single rctx pipe runs[k]).1.success = false ∧
    (run_single rctx pipe runs[k]).1.error =
      some ("Annotator failed: " ++ resF.message) ∧
    (run_single rctx pipe runs[k]).1.step_results = accF ++ [resF] := by
  have hfil : runs.filter (fun r => fnmatch r.run "*") = runs :=
    List.filter_eq_self.mpr (fun a _ => fnmatch_star a.run)
  have hsingle := run_single_fail_at rctx pipe runs[k] front sf back
    preRes accF rdPre rdF resF rdF' hsplit hen hpre hfront hfail hfs
  have hsucc_k : (run_single rctx pipe runs[k]).1.success = false := by
    rw [hsingle]
  have hcount : runs.countP
      (fun r => (run_single rctx pipe r).1.success) =
      runs.length - 1 :=
    countP_all_but_one _ runs k hk hsucc_k hothers
  have hcount2 : (runs.map
      (fun r => (run_single rctx pipe r).1)).countP (·.success) =
      runs.length - 1 := by
    rw [List.countP_map]
    exact hcount
  have hR : pipeline_run rctx pipe runs "*" false false =
      { pipeline_name := pipe.name, total_runs := runs.length,
        successful_runs := runs.length - 1,
        failed_runs :=
          (runs.map (fun r => (run_single rctx pipe r).1)).length -
            (runs.length - 1),
        run_results :=
          runs.map (fun r => (run_single rctx pipe r).1) } := by
    unfold pipeline_run
    rw [if_neg (by simp)]
    rw [hfil, runBatch_no_stop, hcount2]
  refine ⟨?_, ?_, ?_, ?_, hsucc_k, ?_, ?_⟩
  · rw [hR]
  · rw [hR]
  · rw [hR]
    show (runs.map (fun r => (run_single rctx pipe r).1)).length -
      (runs.length - 1) = 1
    rw [List.length_map]
    omega
  · rw [hR]
  · rw [hsingle]
  · rw [hsingle]

/-- Witness for C3: a two-run batch where the annotator raises `boom` on
run `001` only — one failed, one successful; the failed run's error is
the wrapped message and its step results hold exactly the faulting
step's failed result. -/
theorem runner_per_run_failure_isolation_witness :
    (pipeline_run rctxB pipeB [exRun, exRun2] "*" false false).failed_runs
      = 1 ∧
    (pipeline_run rctxB pipeB
      [exRun, exRun2] "*" false false).successful_runs = 1 ∧
    (run_single rctxB pipeB exRun).1.error =
      some "Annotator failed: boom" ∧
    (run_single rctxB pipeB exRun).1.step_results =
      [⟨"ann", "annotator", false, "boom"⟩] := by
  have h := runner_per_run_failure_isolation rctxB pipeB [exRun, exRun2]
    0 (by decide) [] stepB [] [] [] exRun exRun
    ⟨"ann", "annotator", false, "boom"⟩ exRun rfl rfl rfl rfl rfl rfl
    (by
      intro j hj hne
      match j with
      | 0 => exact absurd rfl hne
      | 1 => rfl
      | (n + 2) => exact absurd hj (by simp))
  exact ⟨h.2.2.1, h.2.2.2.1, h.2.2.2.2.2.1, h.2.2.2.2.2.2⟩

/-! ### Kahn order, cycle skipping and recompute idempotence
(claims C1, C8, C5) -/

/-- With `p` pointwise below `q` on `l`, the two `countP`s agree
exactly when every `q`-element of `l` also satisfies `p`. -/
theorem countP_eq_iff_all {α : Type} {p q : α → Bool} {l : List α}
    (himp : ∀ a ∈ l, p a = true → q a = true) :
    l.countP q = l.countP p ↔ ∀ a ∈ l, q a = true → p a = true := by
  induction l with
  | nil => simp
  | cons a l ih =>
      have hmono : l.countP p ≤ l.countP q :=
        List.countP_mono_left (fun x hx => himp x (List.mem_cons_of_mem a hx))
      have ihl := ih (fun x hx => himp x (List.mem_cons_of_mem a hx))
      have hhead := himp a (List.mem_cons_self a l)
      rw [List.countP_cons, List.countP_cons, List.forall_mem_cons]
      cases hq : q a
      · have hp : p a = false := by
          cases hpa : p a
          · rfl
          · exact absurd (hhead hpa) (by simp [hq])
        simp [hp, ihl]
      · by_cases hp : p a = true
        · simp [hp, ihl]
        · have hp2 : p a = false := by
            cases hpa : p a
            · rfl
            · exact absurd hpa hp
          simp [hp2]
          omega

/-- With `p` pointwise below `q`, differing counts exhibit an element
satisfying `q` but not `p`. -/
theorem exists_of_countP_ne {α : Type} {p q : α → Bool} {l : List α}
    (himp : ∀ a ∈ l, p a = true → q a = true)
    (hne : l.countP q ≠ l.countP p) :
    ∃ a ∈ l, q a = true ∧ p a = false := by
  by_contra hcon
  push_neg at hcon
  apply hne
  rw [countP_eq_iff_all himp]
  intro a ha hqa
  cases hpa : p a
  · exact absurd hpa (hcon a ha hqa)
  · rfl

/-- Appending one fresh id to `res` raises each membership count by the
element's multiplicity. -/
theorem countP_mem_append_singleton (l : List String) {res : List String}
    {ch : String} (h : ch ∉ res) :
    l.countP (fun p => decide (p ∈ res ++ [ch]))
      = l.countP (fun p => decide (p ∈ res)) + l.count ch := by
  induction l with
  | nil => simp
  | cons a l ih =>
      rw [List.countP_cons, List.countP_cons, List.count_cons, ih]
      by_cases ha : a = ch
      · subst ha
        have h1 : (a ∈ res ++ [a]) := by simp
        have h2 : ¬(a ∈ res) := h
        simp [h1, h2]
        omega
      · have hmem : (a ∈ res ++ [ch]) ↔ a ∈ res := by simp [ha]
        simp [hmem, ha]
        omega

/-- The inner loop of the graph construction: filtering a parent list
for one parent id yields the child replicated once per occurrence. -/
theorem filterMap_eq_replicate_count (l : List String) (p x : String) :
    l.filterMap (fun q => if q = p then some x else none)
      = List.replicate (l.count p) x := by
  induction l with
  | nil => simp
  | cons a l ih =>
      by_cases h : a = p
      · subst h
        simp [List.filterMap_cons, ih, List.count_cons, List.replicate_succ]
      · simp [List.filterMap_cons, h, ih, List.count_cons]

/-- Every node placed into an adjacency list by the graph construction
is one of the provenance keys. -/
theorem mem_graph_foldr {prov : Dict ChannelProvenance} {p x : String}
    (hx : x ∈ prov.foldr (fun cpr acc =>
        cpr.2.parents.filterMap
          (fun q => if q = p then some cpr.1 else none) ++ acc) []) :
    x ∈ prov.keys := by
  induction prov with
  | nil => simp at hx
  | cons kv rest ih =>
      rw [List.foldr_cons] at hx
      rcases List.mem_append.mp hx with h | h
      · rcases List.mem_filterMap.mp h with ⟨q, hq, hqe⟩
        have hxk : x = kv.1 := by
          by_cases hqp : q = p
          · rw [if_pos hqp] at hqe
            exact (Option.some_inj.mp hqe).symm
          · rw [if_neg hqp] at hqe
            exact absurd hqe (by simp)
        simp [Dict.keys, hxk]
      · exact List.mem_cons_of_mem _ (ih h)

/-- Multiplicity of a child `c` in the raw adjacency fold: the number
of occurrences of the parent `p` in `c`'s recorded parents. -/
theorem count_graph_foldr {prov : Dict ChannelProvenance}
    (hwf : DictWF prov) (p c : String) :
    (prov.foldr (fun cpr acc =>
        cpr.2.parents.filterMap
          (fun q => if q = p then some cpr.1 else none) ++ acc) []).count c
      = (match prov.find? c with
         | some pr => pr.parents.count p
         | none => 0) := by
  induction prov with
  | nil => simp [Dict.find?]
  | cons kv rest ih =>
      have hnd := List.nodup_cons.mp hwf
      rw [List.foldr_cons, List.count_append,
        filterMap_eq_replicate_count, List.count_replicate]
      by_cases hc : kv.1 = c
      · subst hc
        have hz : (rest.foldr (fun cpr acc =>
            cpr.2.parents.filterMap
              (fun q => if q = p then some cpr.1 else none) ++ acc)
            []).count kv.1 = 0 := by
          apply List.count_eq_zero.mpr
          intro hmem
          exact hnd.1 (mem_graph_foldr hmem)
        simp [Dict.find?, hz]
      · rw [ih hnd.2]
        simp [Dict.find?, hc]

/-- `graph[p]` only holds provenance keys. -/
theorem mem_graphOf_sub {prov : Dict ChannelProvenance} {p x : String}
    (hx : x ∈ graphOf prov p) : x ∈ prov.keys := by
  unfold graphOf at hx
  split at hx
  · exact mem_graph_foldr hx
  · simp at hx

/-- For tracked `p` and `c`, the multiplicity of `c` in `graph[p]`
equals the multiplicity of `p` among `c`'s recorded parents. -/
theorem count_graphOf {prov : Dict ChannelProvenance} (hwf : DictWF prov)
    {p : String} (hp : p ∈ prov.keys) (c : String) (hc : c ∈ prov.keys) :
    (graphOf prov p).count c = (parentsOf prov c).count p := by
  unfold graphOf
  rw [if_pos hp, count_graph_foldr hwf]
  unfold parentsOf
  cases hf : prov.find? c with
  | some pr => rfl
  | none =>
      exact absurd ((Dict.find?_isSome_iff_mem_keys prov c).mpr hc)
        (by simp [hf])

/-- Effect of one queue visit on the in-degree table: each neighbour is
decremented once per edge. -/
theorem kahnVisit_deg : ∀ (L : List String) (indeg : String → ℤ)
    (queue : List String) (x : String),
    (kahnVisit indeg queue L).1 x = indeg x - L.count x := by
  intro L
  induction L with
  | nil =>
      intro indeg queue x
      simp [kahnVisit]
  | cons n L ih =>
      intro indeg queue x
      have hstep : kahnVisit indeg queue (n :: L)
          = kahnVisit (fun y => if y = n then indeg n - 1 else indeg y)
            (if indeg n - 1 = 0 then queue ++ [n] else queue) L := rfl
      rw [hstep, ih]
      by_cases hx : x = n
      · subst hx
        rw [if_pos rfl, List.count_cons_self]
        push_cast
        ring
      · rw [if_neg hx, List.count_cons_of_ne hx]

/-- Effect of one queue visit on the queue: when no in-degree is
overdrawn, the visit appends (without duplicates) exactly the nodes
whose in-degree it brought to zero. -/
theorem kahnVisit_queue : ∀ (L : List String) (indeg : String → ℤ)
    (queue : List String),
    (∀ x ∈ L, (L.count x : ℤ) ≤ indeg x) →
    ∃ apps, (kahnVisit indeg queue L).2 = queue ++ apps ∧ apps.Nodup ∧
      ∀ x, x ∈ apps ↔ x ∈ L ∧ indeg x = (L.count x : ℤ) := by
  intro L
  induction L with
  | nil =>
      intro indeg queue _
      exact ⟨[], by simp [kahnVisit], List.nodup_nil, by simp⟩
  | cons n L ih =>
      intro indeg queue hcond
      have hstep : kahnVisit indeg queue (n :: L)
          = kahnVisit (fun y => if y = n then indeg n - 1 else indeg y)
            (if indeg n - 1 = 0 then queue ++ [n] else queue) L := rfl
      have hcount_n : (L.count n : ℤ) + 1 ≤ indeg n := by
        have := hcond n (List.mem_cons_self n L)
        rw [List.count_cons_self] at this
        push_cast at this
        omega
      have hcond2 : ∀ x ∈ L,
          (L.count x : ℤ)
            ≤ (fun y => if y = n then indeg n - 1 else indeg y) x := by
        intro x hx
        by_cases hxn : x = n
        · subst hxn
          simp only [if_pos rfl]
          omega
        · simp only [if_neg hxn]
          have := hcond x (List.mem_cons_of_mem n hx)
          rw [List.count_cons_of_ne hxn] at this
          exact this
      obtain ⟨apps, happ, hnd, hiff⟩ :=
        ih (fun y => if y = n then indeg n - 1 else indeg y)
          (if indeg n - 1 = 0 then queue ++ [n] else queue) hcond2
      rw [hstep]
      by_cases hd : indeg n - 1 = 0
      · rw [if_pos hd] at happ ⊢
        refine ⟨n :: apps, ?_, ?_, ?_⟩
        · rw [happ, List.append_assoc, List.singleton_append]
        · refine List.nodup_cons.mpr ⟨?_, hnd⟩
          intro hmem
          have h1 := (hiff n).mp hmem
          rw [if_pos rfl] at h1
          have h2 : (L.count n : ℤ) = 0 := by omega
          have h3 : L.count n = 0 := by exact_mod_cast h2
          exact absurd h1.1 (List.count_eq_zero.mp h3)
        · intro x
          by_cases hxn : x = n
          · subst hxn
            constructor
            · intro _
              refine ⟨List.mem_cons_self x L, ?_⟩
              rw [List.count_cons_self]
              push_cast
              omega
            · intro _
              exact List.mem_cons_self x apps
          · have h1 := hiff x
            rw [if_neg hxn] at h1
            rw [List.mem_cons, List.mem_cons, List.count_cons_of_ne hxn]
            constructor
            · rintro (h | h)
              · exact absurd h hxn
              · have h2 := h1.mp h
                exact ⟨Or.inr h2.1, h2.2⟩
            · rintro ⟨h | h, he⟩
              · exact absurd h hxn
              · exact Or.inr (h1.mpr ⟨h, he⟩)
      · rw [if_neg hd] at happ ⊢
        refine ⟨apps, happ, hnd, ?_⟩
        intro x
        by_cases hxn : x = n
        · subst hxn
          have h1 := hiff x
          rw [if_pos rfl] at h1
          rw [h1, List.count_cons_self]
          constructor
          · rintro ⟨hm, he⟩
            refine ⟨List.mem_cons_self x L, ?_⟩
            push_cast
            omega
          · rintro ⟨hm, he⟩
            push_cast at he
            have hmem : x ∈ L := by
              by_contra hnm
              have hz : L.count x = 0 := List.count_eq_zero.mpr hnm
              rw [hz] at he
              exact hd (by omega)
            exact ⟨hmem, by omega⟩
        · have h1 := hiff x
          rw [if_neg hxn] at h1
          rw [h1, List.mem_cons, List.count_cons_of_ne hxn]
          constructor
          · rintro ⟨hm, he⟩
            exact ⟨Or.inr hm, he⟩
          · rintro ⟨h | h, he⟩
            · exact absurd h hxn
            · exact ⟨h, he⟩

/-- One iteration of the Kahn `while` loop preserves the invariant,
moving the dequeued id to the end of the emitted order. -/
theorem kahnInv_step {prov : Dict ChannelProvenance} (hwf : DictWF prov)
    {indeg : String → ℤ} {ch : String} {rest res : List String}
    (inv : KahnInv prov indeg (ch :: rest) res) :
    KahnInv prov (kahnVisit indeg rest (graphOf prov ch)).1
      (kahnVisit indeg rest (graphOf prov ch)).2 (res ++ [ch]) := by
  have hch : ch ∈ prov.keys := inv.queue_sub ch (List.mem_cons_self ch rest)
  have hchres : ch ∉ res := inv.disj ch (List.mem_cons_self ch rest)
  have hrc : ∀ x, resCount prov (res ++ [ch]) x
      = resCount prov res x + (parentsOf prov x).count ch := by
    intro x
    exact countP_mem_append_singleton (parentsOf prov x) hchres
  have hall : ∀ c, trackedCount prov c = resCount prov res c →
      ∀ p ∈ parentsOf prov c, p ∈ prov.keys → p ∈ res := by
    intro c h0 p hp hpK
    have himp : ∀ a ∈ parentsOf prov c,
        decide (a ∈ res) = true → decide (a ∈ prov.keys) = true := by
      intro a _ ha
      rw [decide_eq_true_eq] at ha ⊢
      exact inv.res_sub a ha
    have h2 := (countP_eq_iff_all himp).mp h0 p hp (decide_eq_true hpK)
    exact of_decide_eq_true h2
  have hzero : ∀ c, trackedCount prov c = resCount prov res c →
      (parentsOf prov c).count ch = 0 := by
    intro c h0
    apply List.count_eq_zero.mpr
    intro hmem
    exact hchres (hall c h0 ch hmem hch)
  have hLsub : ∀ x ∈ graphOf prov ch, x ∈ prov.keys := by
    intro x hx
    exact mem_graphOf_sub hx
  have hrc_le : ∀ x, resCount prov (res ++ [ch]) x ≤ trackedCount prov x := by
    intro x
    apply List.countP_mono_left
    intro a _ hd
    rw [decide_eq_true_eq] at hd ⊢
    rcases List.mem_append.mp hd with h | h
    · exact inv.res_sub a h
    · rw [List.mem_singleton] at h
      subst h
      exact hch
  have hHD : ∀ x ∈ graphOf prov ch,
      ((graphOf prov ch).count x : ℤ) ≤ indeg x := by
    intro x hx
    have hxK := hLsub x hx
    rw [inv.deg x hxK, count_graphOf hwf hch x hxK]
    have h1 := hrc_le x
    rw [hrc x] at h1
    omega
  obtain ⟨apps, happ, hndapps, hiff⟩ :=
    kahnVisit_queue (graphOf prov ch) indeg rest hHD
  have happs_new : ∀ x ∈ apps,
      x ∈ prov.keys ∧ x ∉ res ∧ x ∉ ch :: rest := by
    intro x hx
    have h1 := (hiff x).mp hx
    have hxK := hLsub x h1.1
    have hpos : 0 < (graphOf prov ch).count x := List.count_pos_iff.mpr h1.1
    have hne : trackedCount prov x ≠ resCount prov res x := by
      intro he
      have h2 := inv.deg x hxK
      rw [he] at h2
      rw [h2] at h1
      omega
    refine ⟨hxK, ?_, ?_⟩
    · intro hmem
      exact hne ((inv.disc x hxK).mp (Or.inl hmem))
    · intro hmem
      exact hne ((inv.disc x hxK).mp (Or.inr hmem))
  have hrestnd := List.nodup_cons.mp inv.queue_nodup
  refine ⟨?_, ?_, ?_, ?_, ?_, ?_, ?_, ?_⟩
  · refine List.Nodup.append inv.res_nodup (List.nodup_singleton ch) ?_
    intro a ha hb
    rw [List.mem_singleton] at hb
    subst hb
    exact hchres ha
  · rw [happ]
    refine List.Nodup.append hrestnd.2 hndapps ?_
    intro a ha hb
    exact ((happs_new a hb).2.2) (List.mem_cons_of_mem ch ha)
  · intro c hc
    rw [happ] at hc
    intro hmem
    rcases List.mem_append.mp hmem with h | h
    · rcases List.mem_append.mp hc with h2 | h2
      · exact inv.disj c (List.mem_cons_of_mem ch h2) h
      · exact (happs_new c h2).2.1 h
    · rw [List.mem_singleton] at h
      subst h
      rcases List.mem_append.mp hc with h2 | h2
      · exact hrestnd.1 h2
      · exact (happs_new c h2).2.2 (List.mem_cons_self c rest)
  · intro c hc
    rcases List.mem_append.mp hc with h | h
    · exact inv.res_sub c h
    · rw [List.mem_singleton] at h
      subst h
      exact hch
  · intro c hc
    rw [happ] at hc
    rcases List.mem_append.mp hc with h | h
    · exact inv.queue_sub c (List.mem_cons_of_mem ch h)
    · exact (happs_new c h).1
  · intro c hc
    rw [kahnVisit_deg, inv.deg c hc, hrc c, count_graphOf hwf hch c hc]
    push_cast
    ring
  · intro c hc
    rw [happ]
    constructor
    · intro hmem
      rcases hmem with h | h
      · rcases List.mem_append.mp h with h2 | h2
        · have h0 := (inv.disc c hc).mp (Or.inl h2)
          rw [hrc c, hzero c h0, Nat.add_zero]
          exact h0
        · rw [List.mem_singleton] at h2
          subst h2
          have h0 := (inv.disc c hc).mp (Or.inr (List.mem_cons_self c rest))
          rw [hrc c, hzero c h0, Nat.add_zero]
          exact h0
      · rcases List.mem_append.mp h with h2 | h2
        · have h0 := (inv.disc c hc).mp (Or.inr (List.mem_cons_of_mem ch h2))
          rw [hrc c, hzero c h0, Nat.add_zero]
          exact h0
        · have h1 := (hiff c).mp h2
          have h2d := inv.deg c hc
          rw [count_graphOf hwf hch c hc] at h1
          rw [hrc c]
          have h3 := h1.2
          rw [h2d] at h3
          omega
    · intro heq
      rw [hrc c] at heq
      by_cases hz : (parentsOf prov c).count ch = 0
      · rw [hz, Nat.add_zero] at heq
        have h1 := (inv.disc c hc).mpr heq
        rcases h1 with h | h
        · exact Or.inl (List.mem_append.mpr (Or.inl h))
        · rcases List.mem_cons.mp h with h2 | h2
          · subst h2
            exact Or.inl (List.mem_append.mpr (Or.inr (List.mem_singleton.mpr rfl)))
          · exact Or.inr (List.mem_append.mpr (Or.inl h2))
      · have hpos : 0 < (parentsOf prov c).count ch := Nat.pos_of_ne_zero hz
        have hLc : 0 < (graphOf prov ch).count c := by
          rw [count_graphOf hwf hch c hc]
          exact hpos
        have hcL : c ∈ graphOf prov ch := List.count_pos_iff.mp hLc
        have hieq : indeg c = ((graphOf prov ch).count c : ℤ) := by
          rw [inv.deg c hc, count_graphOf hwf hch c hc]
          omega
        exact Or.inr (List.mem_append.mpr (Or.inr ((hiff c).mpr ⟨hcL, hieq⟩)))
  · intro i hi p hp hpK
    rw [List.length_append, List.length_singleton] at hi
    by_cases hlt : i < res.length
    · have hget : (res ++ [ch]).get ⟨i, by
          rw [List.length_append, List.length_singleton]; omega⟩
          = res.get ⟨i, hlt⟩ := by
        rw [List.get_eq_getElem, List.get_eq_getElem]
        exact List.getElem_append_left hlt
      rw [List.get_eq_getElem] at hp
      rw [List.take_append_of_le_length (Nat.le_of_lt hlt)]
      apply inv.orderInv i hlt p _ hpK
      rw [List.get_eq_getElem]
      have hg2 : (res ++ [ch])[i] = res[i] := List.getElem_append_left hlt
      rw [hg2] at hp
      exact hp
    · have hieq : i = res.length := by omega
      subst hieq
      rw [List.get_eq_getElem] at hp
      have hg : (res ++ [ch])[res.length] = ch := by
        rw [List.getElem_append_right (Nat.le_refl res.length)]
        simp
      rw [hg] at hp
      rw [List.take_left]
      have h0 := (inv.disc ch hch).mp (Or.inr (List.mem_cons_self ch rest))
      exact hall ch h0 p hp hpK

/-- The fuelled Kahn loop drains the queue completely whenever the fuel
dominates the number of keys not yet emitted: the final state satisfies
the invariant with an empty queue. -/
theorem kahnLoop_inv {prov : Dict ChannelProvenance} (hwf : DictWF prov) :
    ∀ (fuel : ℕ) (indeg : String → ℤ) (queue res : List String),
    KahnInv prov indeg queue res →
    prov.keys.length ≤ fuel + res.length →
    ∃ indegF, KahnInv prov indegF []
      (kahnLoop (graphOf prov) fuel indeg queue res) := by
  intro fuel
  induction fuel with
  | zero =>
      intro indeg queue res inv hlen
      have hsub : queue ++ res ⊆ prov.keys := by
        intro a ha
        rcases List.mem_append.mp ha with h | h
        · exact inv.queue_sub a h
        · exact inv.res_sub a h
      have hnd : (queue ++ res).Nodup :=
        List.Nodup.append inv.queue_nodup inv.res_nodup inv.disj
      have hle := (List.subperm_of_subset hnd hsub).length_le
      rw [List.length_append] at hle
      have hq : queue = [] := by
        have : queue.length = 0 := by omega
        exact List.eq_nil_of_length_eq_zero this
      subst hq
      exact ⟨indeg, inv⟩
  | succ fuel ih =>
      intro indeg queue res inv hlen
      cases queue with
      | nil => exact ⟨indeg, inv⟩
      | cons ch rest =>
          have inv2 := kahnInv_step hwf inv
          have hlen2 : prov.keys.length ≤ fuel + (res ++ [ch]).length := by
            rw [List.length_append, List.length_singleton]
            omega
          exact ih _ _ _ inv2 hlen2

/-- `_topological_sort_channels` establishes the invariant from the
initial queue and runs to completion: fuel `len(provenance)` is always
sufficient. -/
theorem topo_inv {prov : Dict ChannelProvenance} (hwf : DictWF prov) :
    ∃ indegF, KahnInv prov indegF [] (topological_sort_channels prov) := by
  unfold topological_sort_channels
  apply kahnLoop_inv hwf
  · refine ⟨List.nodup_nil, List.Nodup.filter _ hwf, ?_, ?_, ?_, ?_, ?_, ?_⟩
    · intro c _
      exact List.not_mem_nil c
    · intro c hc
      exact absurd hc (List.not_mem_nil c)
    · intro c hc
      exact List.mem_of_mem_filter hc
    · intro c _
      have hres0 : resCount prov [] c = 0 := by
        unfold resCount
        simp
      rw [hres0]
      push_cast
      ring
    · intro c hc
      unfold initQueue
      constructor
      · intro hmem
        rcases hmem with h | h
        · exact absurd h (List.not_mem_nil c)
        · have h2 := (List.mem_filter.mp h).2
          have h3 : trackedCount prov c = 0 := by
            exact_mod_cast of_decide_eq_true h2
          rw [h3]
          unfold resCount
          simp
      · intro heq
        refine Or.inr (List.mem_filter.mpr ⟨hc, ?_⟩)
        have hres0 : resCount prov [] c = 0 := by
          unfold resCount
          simp
        rw [hres0] at heq
        exact decide_eq_true heq
    · intro i hi
      exact absurd hi (Nat.not_lt_zero i)
  · rw [show prov.keys.length = prov.length from List.length_map prov Prod.fst]
    omega

/-- A channel that reaches a cycle has a recorded parent that also
reaches a cycle (possibly itself). -/
theorem unsafe_has_unsafe_parent {prov : Dict ChannelProvenance}
    {c : String} (h : ¬ Safe prov c) :
    ∃ p, parentStep prov c p ∧ ¬ Safe prov p := by
  rw [Safe, not_not] at h
  obtain ⟨d, hd, hcyc⟩ := h
  rcases hd with rfl | hcd
  · obtain ⟨b, hcb, hbc⟩ := Relation.TransGen.head'_iff.mp hcyc
    refine ⟨b, hcb, ?_⟩
    rw [Safe, not_not]
    refine ⟨_, ?_, hcyc⟩
    rcases Relation.reflTransGen_iff_eq_or_transGen.mp hbc with he | ht
    · exact Or.inl he.symm
    · exact Or.inr ht
  · obtain ⟨b, hcb, hbd⟩ := Relation.TransGen.head'_iff.mp hcd
    refine ⟨b, hcb, ?_⟩
    rw [Safe, not_not]
    refine ⟨d, ?_, hcyc⟩
    rcases Relation.reflTransGen_iff_eq_or_transGen.mp hbd with he | ht
    · exact Or.inl he.symm
    · exact Or.inr ht

/-- A channel that reaches a cycle is tracked: its first lineage edge
requires a provenance entry. -/
theorem unsafe_mem_keys {prov : Dict ChannelProvenance} {c : String}
    (h : ¬ Safe prov c) : c ∈ prov.keys := by
  obtain ⟨p, hstep, _⟩ := unsafe_has_unsafe_parent h
  obtain ⟨pr, hf, _⟩ := hstep
  rw [← Dict.find?_isSome_iff_mem_keys, hf]
  rfl

/-- A lineage edge target is among the recorded parents. -/
theorem parentStep_mem_parentsOf {prov : Dict ChannelProvenance}
    {c p : String} (h : parentStep prov c p) : p ∈ parentsOf prov c := by
  obtain ⟨pr, hf, hp⟩ := h
  unfold parentsOf
  rw [hf]
  exact hp

/-- A list whose every element is preceded by its tracked parents
contains only safe channels: an unsafe element would yield an
infinitely descending chain of positions. -/
theorem safe_of_orderInv {prov : Dict ChannelProvenance}
    {res : List String}
    (hord : ∀ i (hi : i < res.length),
      ∀ p ∈ parentsOf prov (res.get ⟨i, hi⟩),
        p ∈ prov.keys → p ∈ res.take i) :
    ∀ c ∈ res, Safe prov c := by
  have hidx : ∀ i (hi : i < res.length), Safe prov (res.get ⟨i, hi⟩) := by
    intro i
    induction i using Nat.strong_induction_on with
    | _ i ihs =>
        intro hi
        by_contra hbad
        obtain ⟨p, hstep, hpbad⟩ := unsafe_has_unsafe_parent hbad
        have hpK : p ∈ prov.keys := unsafe_mem_keys hpbad
        have hpmem := hord i hi p (parentStep_mem_parentsOf hstep) hpK
        obtain ⟨⟨j, hj⟩, hget⟩ := List.mem_iff_get.mp hpmem
        have hjlen : j < i := by
          have := hj
          rw [List.length_take] at this
          omega
        have hj2 : j < res.length := by omega
        have hgetj : (res.take i).get ⟨j, hj⟩ = res.get ⟨j, hj2⟩ := by
          rw [List.get_eq_getElem, List.get_eq_getElem]
          exact List.getElem_take res
        rw [hgetj] at hget
        rw [← hget] at hpbad
        exact hpbad (ihs j hjlen hj2)
  intro c hc
  obtain ⟨⟨i, hi⟩, hget⟩ := List.mem_iff_get.mp hc
  rw [← hget]
  exact hidx i hi

/-- A tracked channel whose emitted-parent count lags its tracked-parent
count has a tracked parent that was never emitted. -/
theorem exists_missing_parent {prov : Dict ChannelProvenance}
    {res : List String} (hressub : ∀ a ∈ res, a ∈ prov.keys)
    {c : String} (hne : trackedCount prov c ≠ resCount prov res c) :
    ∃ p ∈ parentsOf prov c, p ∈ prov.keys ∧ p ∉ res := by
  have himp : ∀ a ∈ parentsOf prov c,
      decide (a ∈ res) = true → decide (a ∈ prov.keys) = true := by
    intro a _ ha
    rw [decide_eq_true_eq] at ha ⊢
    exact hressub a ha
  obtain ⟨a, ha, hqa, hpa⟩ := exists_of_countP_ne himp hne
  refine ⟨a, ha, of_decide_eq_true hqa, ?_⟩
  intro hmem
  rw [decide_eq_true hmem] at hpa
  cases hpa

/-- Conversely, every recorded parent of a tracked channel is a lineage
edge. -/
theorem parentStep_of_mem_parentsOf {prov : Dict ChannelProvenance}
    {c p : String} (hc : c ∈ prov.keys) (hp : p ∈ parentsOf prov c) :
    parentStep prov c p := by
  have hs := (Dict.find?_isSome_iff_mem_keys prov c).mpr hc
  cases hf : prov.find? c with
  | none =>
      rw [hf] at hs
      cases hs
  | some pr =>
      refine ⟨pr, hf, ?_⟩
      unfold parentsOf at hp
      rw [hf] at hp
      exact hp

/-- Completeness of the drained loop: once the queue is empty, every
safe tracked channel has been emitted — otherwise choosing repeatedly a
missing tracked parent builds an arbitrarily long descending chain
through finitely many keys, forcing a repeated (hence cyclic, hence
unsafe) channel. -/
theorem mem_res_of_safe {prov : Dict ChannelProvenance}
    {indegF : String → ℤ} {res : List String}
    (inv : KahnInv prov indegF [] res) {c : String}
    (hc : c ∈ prov.keys) (hsafe : Safe prov c) : c ∈ res := by
  by_contra hcres
  have hstep : ∀ x, x ∈ prov.keys → x ∉ res → Safe prov x →
      ∃ y, parentStep prov x y ∧ y ∈ prov.keys ∧ y ∉ res ∧ Safe prov y := by
    intro x hxK hxres hxsafe
    have hne : trackedCount prov x ≠ resCount prov res x := by
      intro he
      rcases (inv.disc x hxK).mpr he with h | h
      · exact hxres h
      · exact List.not_mem_nil x h
    obtain ⟨p, hp, hpK, hpres⟩ := exists_missing_parent inv.res_sub hne
    refine ⟨p, parentStep_of_mem_parentsOf hxK hp, hpK, hpres, ?_⟩
    by_contra hpbad
    rw [Safe, not_not] at hpbad
    obtain ⟨d, hd, hcyc⟩ := hpbad
    apply hxsafe
    refine ⟨d, Or.inr ?_, hcyc⟩
    have hxp : Reaches prov x p :=
      Relation.TransGen.single (parentStep_of_mem_parentsOf hxK hp)
    rcases hd with rfl | hpd
    · exact hxp
    · exact hxp.trans hpd
  have hnextex : ∀ t : {x : String // x ∈ prov.keys ∧ x ∉ res ∧ Safe prov x},
      ∃ y, parentStep prov t.1 y ∧ y ∈ prov.keys ∧ y ∉ res ∧ Safe prov y :=
    fun t => hstep t.1 t.2.1 t.2.2.1 t.2.2.2
  have hFex : ∃ F : {x : String // x ∈ prov.keys ∧ x ∉ res ∧ Safe prov x} →
      {x : String // x ∈ prov.keys ∧ x ∉ res ∧ Safe prov x},
      ∀ t, parentStep prov t.1 (F t).1 :=
    ⟨fun t => ⟨Classical.choose (hnextex t),
      (Classical.choose_spec (hnextex t)).2.1,
      (Classical.choose_spec (hnextex t)).2.2.1,
      (Classical.choose_spec (hnextex t)).2.2.2⟩,
     fun t => (Classical.choose_spec (hnextex t)).1⟩
  obtain ⟨F, hF⟩ := hFex
  have hg : ∃ g : ℕ → {x : String // x ∈ prov.keys ∧ x ∉ res ∧ Safe prov x},
      ∀ n, parentStep prov (g n).1 (g (n + 1)).1 := by
    refine ⟨fun n => F^[n] ⟨c, hc, hcres, hsafe⟩, ?_⟩
    intro n
    show parentStep prov (F^[n] ⟨c, hc, hcres, hsafe⟩).1
      (F^[n + 1] ⟨c, hc, hcres, hsafe⟩).1
    rw [Function.iterate_succ_apply']
    exact hF _
  obtain ⟨g, hgstep⟩ := hg
  have hreach : ∀ m n, m < n → Reaches prov (g m).1 (g n).1 := by
    intro m n
    induction n with
    | zero =>
        intro h
        exact absurd h (Nat.not_lt_zero m)
    | succ n ihn =>
        intro hlt
        by_cases he : m = n
        · subst he
          exact Relation.TransGen.single (hgstep m)
        · exact (ihn (by omega)).tail (hgstep n)
  have hmaps : ∀ a ∈ Finset.range (prov.keys.toFinset.card + 1),
      (g a).1 ∈ prov.keys.toFinset := by
    intro a _
    exact List.mem_toFinset.mpr (g a).2.1
  obtain ⟨i, hi, j, hj, hij, heq⟩ :=
    Finset.exists_ne_map_eq_of_card_lt_of_maps_to
      (by rw [Finset.card_range]; omega) hmaps
  rcases Nat.lt_or_ge i j with hlt | hge
  · have hr := hreach i j hlt
    rw [heq] at hr
    exact (g j).2.2.2 ⟨(g j).1, Or.inl rfl, hr⟩
  · have hlt : j < i := by omega
    have hr := hreach j i hlt
    rw [← heq] at hr
    exact (g i).2.2.2 ⟨(g i).1, Or.inl rfl, hr⟩

/-- Membership characterisation of the produced order: exactly the
tracked channels that neither lie on nor reach a `parents` cycle. -/
theorem topo_mem_iff {prov : Dict ChannelProvenance} (hwf : DictWF prov)
    (c : String) :
    c ∈ topological_sort_channels prov ↔ c ∈ prov.keys ∧ Safe prov c := by
  obtain ⟨indegF, inv⟩ := topo_inv hwf
  constructor
  · intro h
    exact ⟨inv.res_sub c h, safe_of_orderInv inv.orderInv c h⟩
  · rintro ⟨hK, hs⟩
    exact mem_res_of_safe inv hK hs

/-- A strictly decreasing measure along lineage edges rules out
cycles. -/
theorem acyclic_of_measure {prov : Dict ChannelProvenance}
    (m : String → ℕ) (h : ∀ a b, parentStep prov a b → m b < m a) :
    Acyclic prov := by
  have hr : ∀ a b, Reaches prov a b → m b < m a := by
    intro a b hab
    induction hab with
    | single h1 => exact h _ _ h1
    | tail _ h2 ih => exact lt_trans (h _ _ h2) ih
  intro c hcyc
  exact lt_irrefl (m c) (hr c c hcyc)

/-- Inversion of the guard chain: a passed `stepView` returns exactly
the looked-up provenance entry, split id, owning group, first parent
and parent column. -/
theorem stepView_some_elim {s : RunData} {c : String}
    {g n : String} {sg : SignalGroup} {pr : ChannelProvenance} {pd : Col}
    (h : stepView s c = some (g, n, sg, pr, pd)) :
    s.channel_provenance.find? c = some pr ∧ splitId c = some (g, n) ∧
    s.signals.find? g = some sg ∧
    ∃ pid pg pn, pr.parents.head? = some pid ∧
      splitId pid = some (pg, pn) ∧ pg = g ∧ sg.data.find? pn = some pd := by
  unfold stepView at h
  rw [Option.bind_eq_some] at h
  obtain ⟨pr2, hpr, h⟩ := h
  rw [Option.bind_eq_some] at h
  obtain ⟨gn, hsp, h⟩ := h
  obtain ⟨g2, n2⟩ := gn
  rw [Option.bind_eq_some] at h
  obtain ⟨sg2, hsg, h⟩ := h
  rw [Option.bind_eq_some] at h
  obtain ⟨pid, hpid, h⟩ := h
  rw [Option.bind_eq_some] at h
  obtain ⟨pgn, hpsp, h⟩ := h
  obtain ⟨pg2, pn2⟩ := pgn
  by_cases hpg : pg2 ≠ g2
  · rw [if_pos hpg] at h
    cases h
  · rw [if_neg hpg] at h
    rw [not_not] at hpg
    rw [Option.bind_eq_some] at h
    obtain ⟨pd2, hpd, h⟩ := h
    rw [Option.some_inj, Prod.mk.injEq, Prod.mk.injEq, Prod.mk.injEq,
      Prod.mk.injEq] at h
    obtain ⟨rfl, rfl, rfl, rfl, rfl⟩ := h
    exact ⟨hpr, hsp, hsg, pid, pg2, pn2, hpid, hpsp, hpg, hpd⟩

/-- One recompute iteration writes only the column named by its own
channel id. -/
theorem processChannel_col_other (ctx : Ctx) (s : RunData) (c : String)
    (g n : String) (hne : splitId c ≠ some (g, n)) :
    colOf (processChannel ctx s c) g n = colOf s g n := by
  unfold processChannel
  cases hv : stepView s c
  case none => rfl
  case some t =>
    obtain ⟨g2, n2, sg2, pr2, pd2⟩ := t
    obtain ⟨hpr, hsp, hsg, -⟩ := stepView_some_elim hv
    dsimp only
    cases hr : channelResult ctx sg2 pr2 pd2
    case none => rfl
    case some w =>
      show colOf (setCol s g2 sg2 n2 w) g n = colOf s g n
      unfold colOf setCol
      by_cases hg : g = g2
      · subst hg
        have hnn : n ≠ n2 := by
          intro he
          subst he
          exact hne hsp
        simp only [Dict.find?_set_self, hsg,
          Dict.find?_set_ne sg2.data n2 n w hnn]
      · simp only [Dict.find?_set_ne s.signals g2 g _ (by exact hg)]

/-- One recompute iteration never modifies the provenance map. -/
theorem processChannel_prov (ctx : Ctx) (s : RunData) (c : String) :
    (processChannel ctx s c).channel_provenance = s.channel_provenance := by
  unfold processChannel
  cases hv : stepView s c
  case none => rfl
  case some t =>
    obtain ⟨g2, n2, sg2, pr2, pd2⟩ := t
    dsimp only
    cases hr : channelResult ctx sg2 pr2 pd2
    case none => rfl
    case some w => rfl

/-- One recompute iteration preserves each group's presence and
sampling rate. -/
theorem processChannel_rate (ctx : Ctx) (s : RunData) (c : String)
    (g : String) :
    ((processChannel ctx s c).signals.find? g).map SignalGroup.sampling_rate
      = (s.signals.find? g).map SignalGroup.sampling_rate := by
  unfold processChannel
  cases hv : stepView s c
  case none => rfl
  case some t =>
    obtain ⟨g2, n2, sg2, pr2, pd2⟩ := t
    obtain ⟨hpr, hsp, hsg, -⟩ := stepView_some_elim hv
    dsimp only
    cases hr : channelResult ctx sg2 pr2 pd2
    case none => rfl
    case some w =>
      show (((setCol s g2 sg2 n2 w).signals.find? g).map
        SignalGroup.sampling_rate) = _
      unfold setCol
      by_cases hg : g = g2
      · subst hg
        simp only [Dict.find?_set_self, hsg]
        rfl
      · simp only [Dict.find?_set_ne s.signals g2 g _ (by exact hg)]

/-- Folding iterations over ids that do not name a column leaves that
column unchanged. -/
theorem foldl_col_other (ctx : Ctx) (M : List String) :
    ∀ (s : RunData) (g n : String),
    (∀ c2 ∈ M, splitId c2 ≠ some (g, n)) →
    colOf (M.foldl (processChannel ctx) s) g n = colOf s g n := by
  induction M with
  | nil =>
      intro s g n _
      rfl
  | cons c M ih =>
      intro s g n hM
      rw [List.foldl_cons,
        ih _ g n (fun x hx => hM x (List.mem_cons_of_mem c hx))]
      exact processChannel_col_other ctx s c g n (hM c (List.mem_cons_self c M))

/-- The recompute fold never modifies the provenance map. -/
theorem foldl_prov (ctx : Ctx) (M : List String) :
    ∀ s : RunData, (M.foldl (processChannel ctx) s).channel_provenance
      = s.channel_provenance := by
  induction M with
  | nil =>
      intro s
      rfl
  | cons c M ih =>
      intro s
      rw [List.foldl_cons, ih, processChannel_prov]

/-- The recompute fold preserves group presence and sampling rates. -/
theorem foldl_rate (ctx : Ctx) (M : List String) :
    ∀ (s : RunData) (g : String),
    ((M.foldl (processChannel ctx) s).signals.find? g).map
        SignalGroup.sampling_rate
      = ((s.signals.find? g).map SignalGroup.sampling_rate) := by
  induction M with
  | nil =>
      intro s g
      rfl
  | cons c M ih =>
      intro s g
      rw [List.foldl_cons, ih, processChannel_rate]

/-- The operation body reads only the group's `utc` column and sampling
rate besides its explicit arguments. -/
theorem channelResult_congr (ctx : Ctx) {sgA sgB : SignalGroup}
    (pr : ChannelProvenance) (pd : Col)
    (hutc : sgB.data.find? "utc" = sgA.data.find? "utc")
    (hsr : sgB.sampling_rate = sgA.sampling_rate) :
    channelResult ctx sgB pr pd = channelResult ctx sgA pr pd := by
  unfold channelResult
  rw [hutc, hsr]

/-- Transport of a passed guard chain between two run states that agree
on the provenance entry, group presence/rates and the parent column:
the same view is produced up to the (possibly differing) group
record. -/
theorem stepView_transfer {sA sB : RunData} {c : String}
    (hprov : sB.channel_provenance.find? c = sA.channel_provenance.find? c)
    (hpres : ∀ g, (sB.signals.find? g).map SignalGroup.sampling_rate
      = (sA.signals.find? g).map SignalGroup.sampling_rate)
    (hparent : ∀ pr pid pg pn, sA.channel_provenance.find? c = some pr →
      pr.parents.head? = some pid → splitId pid = some (pg, pn) →
      colOf sB pg pn = colOf sA pg pn)
    {g n : String} {sgA : SignalGroup} {pr : ChannelProvenance} {pd : Col}
    (hA : stepView sA c = some (g, n, sgA, pr, pd)) :
    ∃ sgB, stepView sB c = some (g, n, sgB, pr, pd) ∧
      sA.signals.find? g = some sgA ∧ sB.signals.find? g = some sgB ∧
      sgB.sampling_rate = sgA.sampling_rate := by
  obtain ⟨hprA, hsp, hfA, pid, pg, pn, hhd, hpsp, hpgeq, hpdA⟩ :=
    stepView_some_elim hA
  rw [hpgeq] at hpsp
  have h1 := hpres g
  rw [hfA] at h1
  cases hfB : sB.signals.find? g
  case none =>
    rw [hfB] at h1
    simp at h1
  case some sgB =>
    rw [hfB] at h1
    have hrate : sgB.sampling_rate = sgA.sampling_rate := by
      simpa using h1
    have hcols := hparent pr pid g pn hprA hhd hpsp
    unfold colOf at hcols
    rw [hfA, hfB] at hcols
    dsimp only at hcols
    have hpdB : sgB.data.find? pn = some pd := by
      rw [hcols, hpdA]
    refine ⟨sgB, ?_, hfA, rfl, hrate⟩
    unfold stepView
    rw [hprov, hprA, Option.some_bind]
    rw [hsp, Option.some_bind]
    rw [hfB, Option.some_bind]
    rw [hhd, Option.some_bind]
    rw [hpsp, Option.some_bind]
    rw [if_neg (by simp)]
    rw [hpdB, Option.some_bind]

/-- Two run states agreeing on everything an iteration reads make the
iteration skip together or write the same value to the same column of
their respective groups. -/
theorem processChannel_congr (ctx : Ctx) (sA sB : RunData) (c : String)
    (hprov : sB.channel_provenance.find? c = sA.channel_provenance.find? c)
    (hpres : ∀ g, (sB.signals.find? g).map SignalGroup.sampling_rate
      = (sA.signals.find? g).map SignalGroup.sampling_rate)
    (hutc : ∀ g, colOf sB g "utc" = colOf sA g "utc")
    (hparent : ∀ pr pid pg pn, sA.channel_provenance.find? c = some pr →
      pr.parents.head? = some pid → splitId pid = some (pg, pn) →
      colOf sB pg pn = colOf sA pg pn) :
    (processChannel ctx sA c = sA ∧ processChannel ctx sB c = sB) ∨
    ∃ g n sgA sgB w, splitId c = some (g, n) ∧
      sA.signals.find? g = some sgA ∧ sB.signals.find? g = some sgB ∧
      processChannel ctx sA c = setCol sA g sgA n w ∧
      processChannel ctx sB c = setCol sB g sgB n w := by
  cases hA : stepView sA c
  case none =>
    left
    cases hB : stepView sB c
    case none =>
      constructor
      · unfold processChannel
        rw [hA]
      · unfold processChannel
        rw [hB]
    case some t =>
      obtain ⟨g, n, sgB, pr, pd⟩ := t
      have hprov2 : sA.channel_provenance.find? c
          = sB.channel_provenance.find? c := hprov.symm
      have hpres2 : ∀ g, (sA.signals.find? g).map SignalGroup.sampling_rate
          = (sB.signals.find? g).map SignalGroup.sampling_rate :=
        fun g => (hpres g).symm
      have hparent2 : ∀ pr pid pg pn,
          sB.channel_provenance.find? c = some pr →
          pr.parents.head? = some pid → splitId pid = some (pg, pn) →
          colOf sA pg pn = colOf sB pg pn := by
        intro pr pid pg pn h1 h2 h3
        rw [hprov] at h1
        exact (hparent pr pid pg pn h1 h2 h3).symm
      obtain ⟨sgA, hA2, -⟩ := stepView_transfer hprov2 hpres2 hparent2 hB
      rw [hA] at hA2
      cases hA2
  case some t =>
    obtain ⟨g, n, sgA, pr, pd⟩ := t
    obtain ⟨sgB, hB, hfA, hfB, hrate⟩ :=
      stepView_transfer hprov hpres hparent hA
    have hsp := (stepView_some_elim hA).2.1
    have hutcg : sgB.data.find? "utc" = sgA.data.find? "utc" := by
      have h2 := hutc g
      unfold colOf at h2
      rw [hfA, hfB] at h2
      dsimp only at h2
      exact h2
    have hcr : channelResult ctx sgB pr pd = channelResult ctx sgA pr pd :=
      channelResult_congr ctx pr pd hutcg hrate
    cases hw : channelResult ctx sgA pr pd
    case none =>
      left
      constructor
      · unfold processChannel
        rw [hA]
        dsimp only
        rw [hw]
      · unfold processChannel
        rw [hB]
        dsimp only
        rw [hcr, hw]
    case some w =>
      right
      refine ⟨g, n, sgA, sgB, w, hsp, hfA, hfB, ?_, ?_⟩
      · unfold processChannel
        rw [hA]
        dsimp only
        rw [hw]
      · unfold processChannel
        rw [hB]
        dsimp only
        rw [hcr, hw]

/-- Key idempotence step: provided no tracked channel is named `utc`,
re-running one iteration on the fully recomputed state rewrites the
value the first pass stored — a literal no-op. -/
theorem pass2_step_noop (ctx : Ctx) (run : RunData)
    (hwf : DictWF run.channel_provenance)
    (hutcname : ∀ c2 ∈ run.channel_provenance.keys, ∀ g2 n2,
      splitId c2 = some (g2, n2) → n2 ≠ "utc")
    (M N : List String) (c : String)
    (hL : topological_sort_channels run.channel_provenance = M ++ c :: N) :
    processChannel ctx
      ((topological_sort_channels run.channel_provenance).foldl
        (processChannel ctx) run) c
      = (topological_sort_channels run.channel_provenance).foldl
        (processChannel ctx) run := by
  obtain ⟨indegF, inv⟩ := topo_inv hwf
  have hLnodup := inv.res_nodup
  have hLsub := inv.res_sub
  rw [hL] at hLnodup
  obtain ⟨hndM, hndcN, hdisj⟩ := List.nodup_append.mp hLnodup
  obtain ⟨hcnotN, hndN⟩ := List.nodup_cons.mp hndcN
  have hcnotM : c ∉ M := fun h => hdisj h (List.mem_cons_self c N)
  have hs1u2 : (topological_sort_channels run.channel_provenance).foldl
      (processChannel ctx) run
      = (c :: N).foldl (processChannel ctx)
        (M.foldl (processChannel ctx) run) := by
    rw [hL, List.foldl_append]
  have hmemML : ∀ x ∈ M,
      x ∈ topological_sort_channels run.channel_provenance := by
    intro x hx
    rw [hL]
    exact List.mem_append_left _ hx
  have hnoutc : ∀ g2, ∀ x ∈ topological_sort_channels run.channel_provenance,
      splitId x ≠ some (g2, "utc") := by
    intro g2 x hx heq
    exact hutcname x (hLsub x hx) g2 "utc" heq rfl
  have hprov2 : ((topological_sort_channels run.channel_provenance).foldl
        (processChannel ctx) run).channel_provenance.find? c
      = ((M.foldl (processChannel ctx) run).channel_provenance.find? c) := by
    rw [foldl_prov, foldl_prov]
  have hpres2 : ∀ g,
      (((topological_sort_channels run.channel_provenance).foldl
        (processChannel ctx) run).signals.find? g).map
          SignalGroup.sampling_rate
      = (((M.foldl (processChannel ctx) run).signals.find? g).map
          SignalGroup.sampling_rate) := by
    intro g
    rw [foldl_rate, foldl_rate]
  have hutc2 : ∀ g,
      colOf ((topological_sort_channels run.channel_provenance).foldl
        (processChannel ctx) run) g "utc"
      = colOf (M.foldl (processChannel ctx) run) g "utc" := by
    intro g
    rw [foldl_col_other ctx _ run g "utc" (hnoutc g),
      foldl_col_other ctx M run g "utc"
        (fun x hx => hnoutc g x (hmemML x hx))]
  have hparent2 : ∀ pr pid pg pn,
      (M.foldl (processChannel ctx) run).channel_provenance.find? c
        = some pr →
      pr.parents.head? = some pid → splitId pid = some (pg, pn) →
      colOf ((topological_sort_channels run.channel_provenance).foldl
        (processChannel ctx) run) pg pn
      = colOf (M.foldl (processChannel ctx) run) pg pn := by
    intro pr pid pg pn hfind hhd hpsp
    rw [foldl_prov] at hfind
    by_cases hpidK : pid ∈ run.channel_provenance.keys
    · have hi : M.length
          < (topological_sort_channels run.channel_provenance).length := by
        rw [hL, List.length_append, List.length_cons]
        omega
      have hgetc : (topological_sort_channels run.channel_provenance).get
          ⟨M.length, hi⟩ = c := by
        rw [List.get_eq_getElem]
        simp only [hL]
        rw [List.getElem_append_right (Nat.le_refl M.length)]
        simp
      have hpmem : pid ∈ parentsOf run.channel_provenance c := by
        unfold parentsOf
        rw [hfind]
        exact List.mem_of_mem_head? (Option.mem_def.mpr hhd)
      have hptake := inv.orderInv M.length hi pid (by rw [hgetc]; exact hpmem)
        hpidK
      rw [hL, List.take_left] at hptake
      have hcond : ∀ x ∈ c :: N, splitId x ≠ some (pg, pn) := by
        intro x hx heq
        have hxpid : x = pid := splitId_inj heq hpsp
        subst hxpid
        rcases List.mem_cons.mp hx with h | h
        · subst h
          exact hcnotM hptake
        · exact hdisj hptake (List.mem_cons_of_mem c h)
      rw [hs1u2, foldl_col_other ctx (c :: N) _ pg pn hcond]
    · have hcondL : ∀ x ∈ topological_sort_channels run.channel_provenance,
          splitId x ≠ some (pg, pn) := by
        intro x hx heq
        have hxpid : x = pid := splitId_inj heq hpsp
        subst hxpid
        exact hpidK (hLsub x hx)
      rw [foldl_col_other ctx _ run pg pn hcondL,
        foldl_col_other ctx M run pg pn
          (fun x hx => hcondL x (hmemML x hx))]
  rcases processChannel_congr ctx (M.foldl (processChannel ctx) run)
      ((topological_sort_channels run.channel_provenance).foldl
        (processChannel ctx) run) c hprov2 hpres2 hutc2 hparent2 with
    ⟨h1, h2⟩ | ⟨g, n, sgA, sgB, w, hsp, hfA, hfB, hwA, hwB⟩
  · exact h2
  · have hw1 : colOf (processChannel ctx
        (M.foldl (processChannel ctx) run) c) g n = some w := by
      rw [hwA]
      unfold colOf setCol
      rw [Dict.find?_set_self]
      dsimp only
      rw [Dict.find?_set_self]
    have hs1col : colOf ((topological_sort_channels
        run.channel_provenance).foldl (processChannel ctx) run) g n
        = some w := by
      rw [hs1u2, List.foldl_cons]
      rw [foldl_col_other ctx N _ g n ?_]
      · exact hw1
      · intro x hx heq
        have hxc : x = c := splitId_inj heq hsp
        subst hxc
        exact hcnotN hx
    have hsgBcol : sgB.data.find? n = some w := by
      unfold colOf at hs1col
      rw [hfB] at hs1col
      dsimp only at hs1col
      exact hs1col
    rw [hwB]
    unfold setCol
    rw [Dict.set_eq_self_of_find? sgB.data n w hsgBcol]
    have hgeq : ({ sgB with data := sgB.data } : SignalGroup) = sgB := rfl
    rw [hgeq, Dict.set_eq_self_of_find? _ g sgB hfB]

/-- Folding the whole order a second time over the recomputed state is
the identity. -/
theorem pass2_foldl_noop (ctx : Ctx) (run : RunData)
    (hwf : DictWF run.channel_provenance)
    (hutcname : ∀ c2 ∈ run.channel_provenance.keys, ∀ g2 n2,
      splitId c2 = some (g2, n2) → n2 ≠ "utc") :
    (topological_sort_channels run.channel_provenance).foldl
      (processChannel ctx)
      ((topological_sort_channels run.channel_provenance).foldl
        (processChannel ctx) run)
    = (topological_sort_channels run.channel_provenance).foldl
      (processChannel ctx) run := by
  have key : ∀ (N M : List String),
      topological_sort_channels run.channel_provenance = M ++ N →
      N.foldl (processChannel ctx)
        ((topological_sort_channels run.channel_provenance).foldl
          (processChannel ctx) run)
      = (topological_sort_channels run.channel_provenance).foldl
        (processChannel ctx) run := by
    intro N
    induction N with
    | nil =>
        intro M _
        rfl
    | cons c N ih =>
        intro M hM
        rw [List.foldl_cons, pass2_step_noop ctx run hwf hutcname M N c hM]
        exact ih (M ++ [c]) (by rw [hM, List.append_cons])
  exact key _ [] rfl

/-- A channel all of whose recorded parents are untracked cannot reach
a cycle. -/
theorem safe_of_untracked_parents {prov : Dict ChannelProvenance}
    {c : String}
    (hc : ∀ p ∈ parentsOf prov c, prov.find? p = none) : Safe prov c := by
  have hto : ∀ p, parentStep prov c p → prov.find? p = none := by
    rintro p ⟨pr, hf, hmem⟩
    apply hc
    unfold parentsOf
    rw [hf]
    exact hmem
  have hreach : ∀ d, Reaches prov c d → prov.find? d = none := by
    intro d h
    induction h with
    | single h1 => exact hto _ h1
    | tail h1 h2 ih =>
        obtain ⟨pr, hf, -⟩ := h2
        rw [ih] at hf
        cases hf
  rintro ⟨d, hd, hcyc⟩
  rcases hd with rfl | hcd
  · obtain ⟨b, hcb, hbc⟩ := Relation.TransGen.head'_iff.mp hcyc
    have hbnone := hto b hcb
    rcases Relation.reflTransGen_iff_eq_or_transGen.mp hbc with he | ht
    · obtain ⟨pr, hf, -⟩ := hcb
      rw [he, hbnone] at hf
      cases hf
    · obtain ⟨e, hbe, -⟩ := Relation.TransGen.head'_iff.mp ht
      obtain ⟨pr, hf, -⟩ := hbe
      rw [hbnone] at hf
      cases hf
  · have hdnone := hreach d hcd
    obtain ⟨b, hdb, -⟩ := Relation.TransGen.head'_iff.mp hcyc
    obtain ⟨pr, hf, -⟩ := hdb
    rw [hdnone] at hf
    cases hf

/-- Claim C1: recompute-on-load processes provenance-tracked channels
in dependency order — for every acyclic (well-formed) provenance map
the order produced by `_topological_sort_channels` contains each
tracked channel id exactly once (a permutation of the keys) and places
every tracked parent before each of its children; in the two-entry
scenario (`motion:X_bf10` from `motion:X` by `butter`, and
`motion:X_bf10_d1` from `motion:X_bf10` by `derivative`)
`_recompute_derived_channels` replays `X_bf10` strictly before
`X_bf10_d1` and reconstructs both derived columns from the raw column
alone, leaving `X` untouched. -/
theorem topo_order_and_scenario :
    (∀ prov : Dict ChannelProvenance, DictWF prov → Acyclic prov →
      (topological_sort_channels prov).Perm prov.keys ∧
      ∀ l1 c l2, topological_sort_channels prov = l1 ++ c :: l2 →
        ∀ p ∈ parentsOf prov c, p ∈ prov.keys → p ∈ l1) ∧
    topological_sort_channels exProv
      = ["motion:X_bf10", "motion:X_bf10_d1"] ∧
    colOf (recompute_derived_channels exCtx exRunP) "motion" "X_bf10"
      = some [some 0, some 1, some 4] ∧
    colOf (recompute_derived_channels exCtx exRunP) "motion" "X_bf10_d1"
      = some [some 100, some 200, some 300] ∧
    colOf (recompute_derived_channels exCtx exRunP) "motion" "X"
      = some [some 0, some 1, some 4] := by
  constructor
  · intro prov hwf hacyc
    have hsafe : ∀ c, Safe prov c := by
      intro c
      rintro ⟨d, hd, hcyc⟩
      exact hacyc d hcyc
    constructor
    · obtain ⟨indegF, inv⟩ := topo_inv hwf
      apply (List.perm_ext_iff_of_nodup inv.res_nodup hwf).mpr
      intro a
      rw [topo_mem_iff hwf a]
      simp [hsafe a]
    · intro l1 c l2 heq p hp hpK
      obtain ⟨indegF, inv⟩ := topo_inv hwf
      have hi : l1.length < (topological_sort_channels prov).length := by
        rw [heq, List.length_append, List.length_cons]
        omega
      have hgetc : (topological_sort_channels prov).get ⟨l1.length, hi⟩
          = c := by
        rw [List.get_eq_getElem]
        simp only [heq]
        rw [List.getElem_append_right (Nat.le_refl l1.length)]
        simp
      have h2 := inv.orderInv l1.length hi p (by rw [hgetc]; exact hp) hpK
      rw [heq, List.take_left] at h2
      exact h2
  · refine ⟨by decide, ?_, ?_, ?_⟩
    · with_unfolding_all decide
    · with_unfolding_all decide
    · with_unfolding_all decide

/-- Witness for C1: the scenario provenance map is well-formed and
acyclic, the produced order is a permutation of its keys, and the
parents of the second entry all precede it. -/
theorem topo_order_and_scenario_witness :
    DictWF exProv ∧ Acyclic exProv ∧
    (topological_sort_channels exProv).Perm exProv.keys ∧
    (∀ p ∈ parentsOf exProv "motion:X_bf10_d1",
      p ∈ exProv.keys → p ∈ ["motion:X_bf10"]) := by
  have hwf : DictWF exProv := by
    unfold DictWF
    decide
  have hacyc : Acyclic exProv := by
    apply acyclic_of_measure (fun s =>
      if s = "motion:X_bf10_d1" then 2
      else if s = "motion:X_bf10" then 1 else 0)
    intro a b hstep
    obtain ⟨pr, hf, hb⟩ := hstep
    have haK : a ∈ exProv.keys := by
      rw [← Dict.find?_isSome_iff_mem_keys, hf]
      rfl
    have haK2 : a = "motion:X_bf10" ∨ a = "motion:X_bf10_d1" := by
      rcases List.mem_cons.mp
          (show a ∈ "motion:X_bf10" :: ["motion:X_bf10_d1"] from haK)
        with h | h
      · exact Or.inl h
      · exact Or.inr (List.mem_singleton.mp h)
    rcases haK2 with rfl | rfl
    · rw [show exProv.find? "motion:X_bf10"
          = some ⟨["motion:X"], "butter", [("cutoff", PVal.int 10)]⟩
          from by decide, Option.some_inj] at hf
      subst hf
      rw [List.mem_singleton.mp (show b ∈ ["motion:X"] from hb)]
      decide
    · rw [show exProv.find? "motion:X_bf10_d1"
          = some ⟨["motion:X_bf10"], "derivative", [("order", PVal.int 1)]⟩
          from by decide, Option.some_inj] at hf
      subst hf
      rw [List.mem_singleton.mp (show b ∈ ["motion:X_bf10"] from hb)]
      decide
  obtain ⟨hgen, htopo, -⟩ := topo_order_and_scenario
  have h2 := hgen exProv hwf hacyc
  refine ⟨hwf, hacyc, h2.1, ?_⟩
  exact h2.2 ["motion:X_bf10"] "motion:X_bf10_d1" [] htopo

/-- Claim C8: when the persisted provenance map contains a cycle among
tracked ids, `_topological_sort_channels` omits every id that lies on a
cycle or whose ancestry reaches one — exactly the ids kept are the
tracked ids safe from cycles — so `_recompute_derived_channels` never
recomputes an unsafe channel (its column is left byte-for-byte
unchanged) and no error is raised (the embedding is total), while the
remaining safe channels are still in the recompute order. -/
theorem cyclic_provenance_skipped :
    ∀ prov : Dict ChannelProvenance, DictWF prov →
      (∀ c, c ∈ topological_sort_channels prov
        ↔ (c ∈ prov.keys ∧ Safe prov c)) ∧
      (∀ (ctx : Ctx) (run : RunData), run.channel_provenance = prov →
        ∀ c g n, ¬ Safe prov c → splitId c = some (g, n) →
          colOf (recompute_derived_channels ctx run) g n
            = colOf run g n) := by
  intro prov hwf
  constructor
  · exact topo_mem_iff hwf
  · intro ctx run hrp c g n hunsafe hsp
    unfold recompute_derived_channels
    by_cases hemp : run.channel_provenance.isEmpty
    · rw [if_pos hemp]
    · rw [if_neg hemp]
      apply foldl_col_other
      intro x hx heq
      have hxc : x = c := splitId_inj heq hsp
      subst hxc
      rw [hrp] at hx
      exact hunsafe ((topo_mem_iff hwf x).mp hx).2

/-- Witness for C8: in the `g:a ↔ g:b` cycle with safe `g:c`, the sort
keeps `g:c`, omits `g:a`, and recompute leaves `g:a`'s column
unchanged. -/
theorem cyclic_provenance_skipped_witness :
    "g:c" ∈ topological_sort_channels cycProv ∧
    "g:a" ∉ topological_sort_channels cycProv ∧
    colOf (recompute_derived_channels exCtx cycRun) "g" "a"
      = colOf cycRun "g" "a" := by
  have hwf : DictWF cycProv := by
    unfold DictWF
    decide
  obtain ⟨hmem, hcol⟩ := cyclic_provenance_skipped cycProv hwf
  have hstepab : parentStep cycProv "g:a" "g:b" :=
    ⟨⟨["g:b"], "butter", []⟩, by decide, by decide⟩
  have hstepba : parentStep cycProv "g:b" "g:a" :=
    ⟨⟨["g:a"], "butter", []⟩, by decide, by decide⟩
  have hcyc : Reaches cycProv "g:a" "g:a" :=
    Relation.TransGen.tail (Relation.TransGen.single hstepab) hstepba
  have hunsafe : ¬ Safe cycProv "g:a" := by
    rw [Safe, not_not]
    exact ⟨"g:a", Or.inl rfl, hcyc⟩
  have hsafec : Safe cycProv "g:c" := by
    apply safe_of_untracked_parents
    intro p hp
    rw [List.mem_singleton.mp (show p ∈ ["g:x"] from hp)]
    decide
  refine ⟨?_, ?_, ?_⟩
  · exact (hmem "g:c").mpr ⟨by decide, hsafec⟩
  · intro h
    exact hunsafe ((hmem "g:a").mp h).2
  · exact hcol exCtx cycRun rfl "g:a" "g" "a" hunsafe (by decide)

/-- Claim C5 (amended): recompute-on-load is idempotent *provided* no
tracked channel id names a `utc` column — with the provenance map
well-formed, running `_recompute_derived_channels` twice equals running
it once, bit for bit.  Without the proviso a tracked channel written
into a group's `utc` column changes the time axis read by `derivative`
siblings, and the second pass reproduces different values
(`recompute_idempotence_counterexample`). -/
theorem recompute_idempotent_no_utc_overwrite (ctx : Ctx) (run : RunData)
    (hwf : DictWF run.channel_provenance)
    (hutcname : ∀ c ∈ run.channel_provenance.keys, ∀ g n,
      splitId c = some (g, n) → n ≠ "utc") :
    recompute_derived_channels ctx (recompute_derived_channels ctx run)
      = recompute_derived_channels ctx run := by
  unfold recompute_derived_channels
  by_cases hemp : run.channel_provenance.isEmpty
  · rw [if_pos hemp, if_pos hemp]
  · rw [if_neg hemp]
    have hprov := foldl_prov ctx
      (topological_sort_channels run.channel_provenance) run
    rw [hprov, if_neg hemp]
    exact pass2_foldl_noop ctx run hwf hutcname

/-- Counterexample to claim C5 as stated: with tracked `g:utc` (a
`butter` copy of raw `g:x`) and tracked derivative `g:v`, the first
pass computes `g:v` against the original time axis and then overwrites
`utc`; the second pass recomputes `g:v` against the new axis and stores
different values, although the provenance map is well-formed and even
acyclic. -/
theorem recompute_idempotence_counterexample :
    recompute_derived_channels exCtx
        (recompute_derived_channels exCtx cexRun5)
      ≠ recompute_derived_channels exCtx cexRun5 ∧
    DictWF cexRun5.channel_provenance ∧
    Acyclic cexRun5.channel_provenance := by
  refine ⟨?_, ?_, ?_⟩
  · intro h
    have h2 := congrArg (fun r => colOf r "g" "v") h
    exact absurd h2 (by with_unfolding_all decide)
  · unfold DictWF
    decide
  · apply acyclic_of_measure (fun s => if s = "g:x" then 0 else 1)
    intro a b hstep
    obtain ⟨pr, hf, hb⟩ := hstep
    have haK : a ∈ cexRun5.channel_provenance.keys := by
      rw [← Dict.find?_isSome_iff_mem_keys, hf]
      rfl
    have haK2 : a = "g:v" ∨ a = "g:utc" := by
      rcases List.mem_cons.mp (show a ∈ "g:v" :: ["g:utc"] from haK)
        with h | h
      · exact Or.inl h
      · exact Or.inr (List.mem_singleton.mp h)
    have hbx : b = "g:x" := by
      rcases haK2 with rfl | rfl
      · rw [show cexRun5.channel_provenance.find? "g:v"
            = some ⟨["g:x"], "derivative", []⟩ from by decide,
            Option.some_inj] at hf
        subst hf
        exact List.mem_singleton.mp (show b ∈ ["g:x"] from hb)
      · rw [show cexRun5.channel_provenance.find? "g:utc"
            = some ⟨["g:x"], "butter", []⟩ from by decide,
            Option.some_inj] at hf
        subst hf
        exact List.mem_singleton.mp (show b ∈ ["g:x"] from hb)
    subst hbx
    have hax : a ≠ "g:x" := by
      rcases haK2 with rfl | rfl
      · decide
      · decide
    simp [hax]

/-- Witness for C5 (amended): the C1 scenario run satisfies the
proviso, and recomputing it twice equals recomputing it once. -/
theorem recompute_idempotent_no_utc_overwrite_witness :
    DictWF exRunP.channel_provenance ∧
    recompute_derived_channels exCtx
        (recompute_derived_channels exCtx exRunP)
      = recompute_derived_channels exCtx exRunP := by
  have hwf : DictWF exRunP.channel_provenance := by
    unfold DictWF
    decide
  have hutcname : ∀ c ∈ exRunP.channel_provenance.keys, ∀ g n,
      splitId c = some (g, n) → n ≠ "utc" := by
    intro c hc g n hsp
    rcases List.mem_cons.mp
        (show c ∈ "motion:X_bf10" :: ["motion:X_bf10_d1"] from hc)
      with h | h
    · subst h
      rw [show splitId "motion:X_bf10" = some ("motion", "X_bf10")
          from by decide, Option.some_inj, Prod.mk.injEq] at hsp
      rw [← hsp.2]
      decide
    · rw [List.mem_singleton.mp h] at hsp
      rw [show splitId "motion:X_bf10_d1" = some ("motion", "X_bf10_d1")
          from by decide, Option.some_inj, Prod.mk.injEq] at hsp
      rw [← hsp.2]
      decide
  exact ⟨hwf,
    recompute_idempotent_no_utc_overwrite exCtx exRunP hwf hutcname⟩
